import Mathlib

/-!
# VisitorCounter: the counter store and its request handlers

A shallow embedding of `main.go` (package `main` of Felix-Vk/VisitorCounter):
the `Stats` record, `loadStats`, `saveStats`, `getIP` and the three handlers.

Modelling conventions.

* Go `int` is the 64 bit signed integer of the usual targets: an `Int` that every
  arithmetic step brings back into range with `wrapInt`.
* A Go map is a finite map (`Finmap`); the nil map is `none`. Reading a nil map
  gives the zero value, writing to it panics.
* A Go string is a `String`, a sequence of Unicode code points, wherever it is valid
  UTF-8: visitor identities are taken from the peer address of a connection or from a
  decoded JSON document. The keys of a record may be any byte strings, and the JSON
  encoder rewrites the invalid ones; `RawStats` is the record with its keys as bytes
  and `encodeRawStats` what is written for it.
* The persistence file is seen through `encoding/json`: either the stream does
  not start with a syntactically valid JSON value (`FileContent.unparsable`,
  which includes the empty file), or the file is the JSON value `j`
  (`FileContent.value j`), or it is the value `j` followed by further bytes
  (`FileContent.valueThenJunk j`); `Decoder.Decode` reads the first value and
  does not look at what follows it.
* The handlers serialise on the mutex `mu`, and nothing outside the locked region
  touches `stats` or the file, so a handler invocation is one atomic transition of
  `World`; `none` as a result means that the handler panicked.
-/

namespace VisitorCounter

/-! ## Go integers -/

/-- Largest value of a Go `int` (64 bit). -/
def maxInt : Int := 2 ^ 63 - 1

/-- Smallest value of a Go `int` (64 bit). -/
def minInt : Int := -(2 ^ 63)

/-- Two's complement wrap-around of 64 bit signed arithmetic. -/
def wrapInt (n : Int) : Int := (n + 2 ^ 63) % 2 ^ 64 - 2 ^ 63

/-- Range test of `strconv.ParseInt(s, 10, 64)`, also the range of a stored `int`. -/
def isInt (n : Int) : Bool := decide (minInt ≤ n) && decide (n ≤ maxInt)

/-! ## Go maps with string keys -/

/-- Contents of a non-nil `map[string]α`. -/
abbrev StrMap (α : Type) := Finmap (fun _ : String => α)

/-- A `map[string]α` variable: `none` is the nil map. -/
abbrev GoMap (α : Type) := Option (StrMap α)

/-- The expression `m[k]`: the zero value when the key is absent or the map is nil. -/
def GoMap.get {α : Type} (m : GoMap α) (k : String) (zero : α) : α :=
  match m with
  | none => zero
  | some f => (f.lookup k).getD zero

/-- The expression `len(m)`. -/
def GoMap.len {α : Type} (m : GoMap α) : Nat :=
  match m with
  | none => 0
  | some f => f.keys.card

/-- The statement `m[k] = v`: `none` is the panic "assignment to entry in nil map". -/
def GoMap.set {α : Type} (m : GoMap α) (k : String) (v : α) : Option (GoMap α) :=
  match m with
  | none => none
  | some f => some (some (f.insert k v))

/-- The entries of a map seen as a mathematical finite map (nil has no entries). -/
def GoMap.contents {α : Type} (m : GoMap α) : StrMap α := m.getD ∅

/-- Sum of all values of a `map[string]int`, as a mathematical integer. -/
def sumValues (m : GoMap Int) : Int :=
  ∑ k in m.contents.keys, (m.contents.lookup k).getD 0

/-! ## The record -/

/-- The struct `Stats` (main.go lines 13-17), the keys of its maps held as decoded strings
(`RawStats` is the struct with arbitrary byte strings as keys). -/
structure Stats where
  TotalVisits : Int
  UniqueVisitors : GoMap Bool
  UserVisits : GoMap Int
deriving DecidableEq

/-- The zero value of `Stats`: what the package variable `stats` holds at process start. -/
def zeroStats : Stats := ⟨0, none, none⟩

/-- The composite literal of lines 29-33 and 41-45: zero total and two fresh `make`d maps. -/
def emptyStats : Stats := ⟨0, some ∅, some ∅⟩

/-- Every stored integer of the record is a Go `int`. -/
def Stats.InRange (s : Stats) : Prop :=
  isInt s.TotalVisits = true ∧
    ∀ k ∈ s.UserVisits.contents.keys, isInt ((s.UserVisits.contents.lookup k).getD 0) = true

instance (s : Stats) : Decidable s.InRange :=
  inferInstanceAs (Decidable (_ ∧ _))

/-! ## JSON values and the persistence file -/

/-- A JSON value as `encoding/json` sees it. Number literals are split into those in
plain integer syntax (`int`) and those with a fraction or an exponent (`nonInt`), which
`strconv.ParseInt` refuses. -/
inductive Json where
  | null
  | bool (b : Bool)
  | int (n : Int)
  | nonInt
  | str (s : String)
  | arr (xs : List Json)
  | obj (kvs : List (String × Json))

/-- What `json.NewDecoder(f).Decode` finds in an opened file: no well-formed JSON value
at the start of the stream (`unparsable`, which includes the empty file); the JSON value
`j` and nothing else but white space (`value j`); or the value `j` followed by further
bytes, which `Decode` does not read (`valueThenJunk j`). -/
inductive FileContent where
  | unparsable
  | value (j : Json)
  | valueThenJunk (j : Json)

/-- The content of the file as a whole is not a JSON document. -/
def FileContent.Invalid (c : FileContent) : Prop :=
  match c with
  | FileContent.unparsable => True
  | FileContent.value _ => False
  | FileContent.valueThenJunk _ => True

/-- The file `stats.json`: `none` when `os.Open` fails (the file does not exist). -/
abbrev Disk := Option FileContent

/-! ### Encoding -/

/-- Bytewise order on strings (`strings.Compare a b ≤ 0`), by structural recursion. -/
def leChars : List Char → List Char → Bool
  | [], _ => true
  | _ :: _, [] => false
  | a :: as, b :: bs =>
    if a.toNat < b.toNat then true
    else if a.toNat = b.toNat then leChars as bs
    else false

/-- The order in which `encoding/json` writes the keys of a map. -/
def keyLe (a b : String) : Prop := leChars a.data b.data = true

instance : DecidableRel keyLe := fun a b => inferInstanceAs (Decidable (leChars a.data b.data = true))

instance : IsTotal String keyLe := ⟨fun x y => by
  unfold keyLe
  generalize x.data = a
  generalize y.data = b
  induction a generalizing b with
  | nil => simp [leChars]
  | cons c cs ih =>
    cases b with
    | nil => simp [leChars]
    | cons d ds =>
      rcases Nat.lt_trichotomy c.toNat d.toNat with h1 | h1 | h1
      · left; simp [leChars, h1]
      · rcases ih ds with h | h
        · left; simp [leChars, h1, h]
        · right; simp [leChars, h1, h]
      · right; simp [leChars, h1]⟩

instance : IsTrans String keyLe := ⟨fun x y z => by
  unfold keyLe
  generalize x.data = a
  generalize y.data = b
  generalize z.data = c
  induction a generalizing b c with
  | nil => simp [leChars]
  | cons p ps ih =>
    cases b with
    | nil => simp [leChars]
    | cons q qs =>
      cases c with
      | nil => simp [leChars]
      | cons r rs =>
        intro h1 h2
        simp only [leChars] at h1 h2 ⊢
        split_ifs at h1 h2 ⊢ <;> first
          | rfl
          | exact ih qs rs h1 h2
          | (exfalso; omega)⟩

instance : IsAntisymm String keyLe := ⟨fun x y => by
  intro h1 h2
  apply String.ext
  unfold keyLe at h1 h2
  generalize x.data = a at h1 h2 ⊢
  generalize y.data = b at h1 h2 ⊢
  induction a generalizing b with
  | nil => cases b with
    | nil => rfl
    | cons d ds => simp [leChars] at h2
  | cons c cs ih =>
    cases b with
    | nil => simp [leChars] at h1
    | cons d ds =>
      simp only [leChars] at h1 h2
      split_ifs at h1 h2 <;> first
        | (exfalso; omega)
        | (have ht := ih ds h1 h2
           have hc : c = d :=
             Char.ext (UInt32.ext (by simpa [Char.toNat, UInt32.toNat] using ‹c.toNat = d.toNat›))
           rw [ht, hc])⟩

/-- The keys of a map in the order `encoding/json` writes them (sorted). -/
def sortedKeys {α : Type} (m : StrMap α) : List String :=
  Quot.liftOn m.keys.val (List.insertionSort keyLe) (fun a b h =>
    List.eq_of_perm_of_sorted
      (((List.perm_insertionSort keyLe a).trans h).trans (List.perm_insertionSort keyLe b).symm)
      (List.sorted_insertionSort keyLe a) (List.sorted_insertionSort keyLe b))

/-- Encoding of a map whose keys are held decoded, hence valid UTF-8: `null` for the nil
map, else an object with the keys sorted. The encoder on arbitrary byte-string keys is
`encodeRawMap`; loading cannot tell the two apart (`saveStats_raw`). -/
def encodeMap {α : Type} (enc : α → Json) (m : GoMap α) : Json :=
  match m with
  | none => Json.null
  | some f => Json.obj ((sortedKeys f).filterMap (fun k => (f.lookup k).map (fun v => (k, enc v))))

/-- The value `json.NewEncoder(f).Encode(&stats)` writes (line 65): one object with the
three tagged fields in declaration order. -/
def encodeStats (s : Stats) : Json :=
  Json.obj
    [ ("total_visits", Json.int s.TotalVisits),
      ("unique_visitors", encodeMap Json.bool s.UniqueVisitors),
      ("user_visits", encodeMap Json.int s.UserVisits) ]

/-! ### Decoding -/

/-- Case folding of one rune of a JSON object key, as far as it matters for matching the
ASCII field names of `Stats`: ASCII letters are folded to upper case, and the only two
non-ASCII runes whose fold orbit holds an ASCII letter (long s and the Kelvin sign) are
folded to that letter. -/
def foldRune (c : Char) : Char :=
  if c = Char.ofNat 0x17F then 'S'
  else if c = Char.ofNat 0x212A then 'K'
  else c.toUpper

/-- Folded form of a key; a key selects a struct field when the folded forms agree. -/
def foldName (s : String) : String := ⟨s.data.map foldRune⟩

/-- Decoding a JSON value into an `int` that holds `cur`: `none` is an error. -/
def decodeInt (cur : Int) (j : Json) : Option Int :=
  match j with
  | Json.null => some cur
  | Json.int n => if isInt n then some n else none
  | _ => none

/-- Decoding a JSON value into a `bool` that holds `cur`: `none` is an error. -/
def decodeBool (cur : Bool) (j : Json) : Option Bool :=
  match j with
  | Json.null => some cur
  | Json.bool b => some b
  | _ => none

/-- Decoding the members of a JSON object into a map, in order: each value is decoded
into a zeroed element `dec` and stored under its key, so a repeated key keeps the last. -/
def decodeEntries {α : Type} (dec : Json → Option α) :
    StrMap α → List (String × Json) → Option (StrMap α)
  | m, [] => some m
  | m, (k, v) :: rest =>
    match dec v with
    | none => none
    | some x => decodeEntries dec (m.insert k x) rest

/-- Decoding a JSON value into a map variable holding `cur`: `null` makes it nil, an
object is merged into the existing map (allocated when nil), anything else is an error. -/
def decodeMap {α : Type} (dec : Json → Option α) (cur : GoMap α) (j : Json) :
    Option (GoMap α) :=
  match j with
  | Json.null => some none
  | Json.obj kvs => (decodeEntries dec cur.contents kvs).map some
  | _ => none

/-- Decoding one member of the top-level object into the matching field of `s`; a key
that matches no field is skipped. -/
def decodeField (s : Stats) (k : String) (v : Json) : Option Stats :=
  if foldName k = foldName "total_visits" then
    (decodeInt s.TotalVisits v).map (fun n => { s with TotalVisits := n })
  else if foldName k = foldName "unique_visitors" then
    (decodeMap (decodeBool false) s.UniqueVisitors v).map (fun m => { s with UniqueVisitors := m })
  else if foldName k = foldName "user_visits" then
    (decodeMap (decodeInt 0) s.UserVisits v).map (fun m => { s with UserVisits := m })
  else some s

/-- Decoding the members of the top-level object, in order. -/
def decodeFields : Stats → List (String × Json) → Option Stats
  | s, [] => some s
  | s, (k, v) :: rest =>
    match decodeField s k v with
    | none => none
    | some t => decodeFields t rest

/-- The call `Decode(&stats)` on a syntactically valid value when `stats` holds `cur`:
`none` when it returns an error (the partly filled record is then overwritten by the
caller, lines 39-46, so it is not kept). -/
def decodeStats (cur : Stats) (j : Json) : Option Stats :=
  match j with
  | Json.null => some cur
  | Json.obj kvs => decodeFields cur kvs
  | _ => none

/-- The result of `json.NewDecoder(f).Decode(&stats)` on an opened file. -/
def decodeFile (cur : Stats) (c : FileContent) : Option Stats :=
  match c with
  | FileContent.unparsable => none
  | FileContent.value j => decodeStats cur j
  | FileContent.valueThenJunk j => decodeStats cur j

/-! ## The store -/

/-- Lines 48-54: replace a nil container by a fresh empty one. -/
def ensureMaps (s : Stats) : Stats :=
  let s1 : Stats :=
    match s.UniqueVisitors with
    | none => { s with UniqueVisitors := some ∅ }
    | some _ => s
  match s1.UserVisits with
  | none => { s1 with UserVisits := some ∅ }
  | some _ => s1

/-- The function `loadStats` (lines 26-55); `cur` is the value of the package variable
`stats` when it is called. -/
def loadStats (cur : Stats) (disk : Disk) : Stats :=
  match disk with
  | none => emptyStats
  | some c =>
    match decodeFile cur c with
    | none => ensureMaps emptyStats
    | some s => ensureMaps s

/-- Process start (line 127): `loadStats` runs once, on the zero-valued `stats`. -/
def startup (disk : Disk) : Stats := loadStats zeroStats disk

/-- How one call of `saveStats` fares: `os.Create` fails; or the file is created
(truncated) and `Encode` fails, leaving `left` behind; or both succeed. -/
inductive SaveOutcome where
  | createFails
  | encodeFails (left : FileContent)
  | ok

/-- Memory, file and the number of `saveStats` calls made so far (a ghost counter). -/
structure World where
  stats : Stats
  disk : Disk
  saves : Nat

/-- The function `saveStats` (lines 58-69): it never touches `stats`. -/
def saveStats (w : World) (o : SaveOutcome) : World :=
  match o with
  | SaveOutcome.createFails => { w with saves := w.saves + 1 }
  | SaveOutcome.encodeFails left => { w with disk := some left, saves := w.saves + 1 }
  | SaveOutcome.ok =>
    { w with disk := some (FileContent.value (encodeStats w.stats)), saves := w.saves + 1 }

/-! ## Visitor identity -/

/-- The three results of `net.SplitHostPort`. -/
structure HostPort where
  host : String
  port : String
  err : Option String
deriving DecidableEq

/-- The closure `addrErr` of `net.SplitHostPort`: empty host and port, and the error. -/
def addrErr (why : String) : HostPort := ⟨"", "", some why⟩

/-- Index of the first `c` in `s`, as `strings.IndexByte`: `none` stands for -1. -/
def indexByte (s : List Char) (c : Char) : Option Nat :=
  if s.indexOf c < s.length then some (s.indexOf c) else none

/-- Index of the last `c` in `s`, as `strings.LastIndexByte`: `none` stands for -1. -/
def lastIndexByte (s : List Char) (c : Char) : Option Nat :=
  match indexByte s.reverse c with
  | none => none
  | some r => some (s.length - 1 - r)

/-- The tail of `net.SplitHostPort`: no bracket may follow positions `j` and `k`, and
the port is what follows the last colon (at `i`). -/
def splitFinish (s : List Char) (i : Nat) (host : List Char) (j k : Nat) : HostPort :=
  if (indexByte (s.drop j) '[').isSome then addrErr "unexpected '[' in address"
  else if (indexByte (s.drop k) ']').isSome then addrErr "unexpected ']' in address"
  else ⟨⟨host⟩, ⟨s.drop (i + 1)⟩, none⟩

/-- The library function `net.SplitHostPort`, after the Go standard library. -/
def SplitHostPort (hostport : String) : HostPort :=
  let s := hostport.data
  match lastIndexByte s ':' with
  | none => addrErr "missing port in address"
  | some i =>
    if s.head? = some '[' then
      match indexByte s ']' with
      | none => addrErr "missing ']' in address"
      | some e =>
        if e + 1 = s.length then addrErr "missing port in address"
        else if e + 1 = i then splitFinish s i ((s.take e).drop 1) 1 (e + 1)
        else if s.get? (e + 1) = some ':' then addrErr "too many colons in address"
        else addrErr "missing port in address"
    else
      if (indexByte (s.take i) ':').isSome then addrErr "too many colons in address"
      else splitFinish s i (s.take i) 0 0

/-- A request, as far as the handlers look at it: `r.URL.Path` and `r.RemoteAddr`. -/
structure Request where
  Path : String
  RemoteAddr : String

/-- The function `getIP` (lines 72-75): the host result, the error being dropped. -/
def getIP (r : Request) : String := (SplitHostPort r.RemoteAddr).host

/-! ## The handlers -/

/-- The three numbers the home page shows (lines 91-93). -/
structure HomePage where
  personalVisits : Int
  total : Int
  unique : Int
deriving DecidableEq

/-- What a handler writes: nothing, the home page, or the stats page (total, number of
unique visitors, and one line per entry of `UserVisits`, in no particular order). -/
inductive Response where
  | empty
  | home (p : HomePage)
  | stats (total : Int) (unique : Int) (breakdown : StrMap Int)
deriving DecidableEq

/-- The function `homeHandler` (lines 78-102), the part between `mu.Lock` and
`mu.Unlock` being one step. `none` is a panic (a write to a nil map). -/
def homeHandler (w : World) (r : Request) (o : SaveOutcome) : Option (World × Response) :=
  if r.Path = "/favicon.ico" then some (w, Response.empty)
  else
    let ip := getIP r
    let s1 : Stats := { w.stats with TotalVisits := wrapInt (w.stats.TotalVisits + 1) }
    match s1.UniqueVisitors.set ip true with
    | none => none
    | some u =>
      let s2 : Stats := { s1 with UniqueVisitors := u }
      match s2.UserVisits.set ip (wrapInt (s2.UserVisits.get ip 0 + 1)) with
      | none => none
      | some m =>
        let s3 : Stats := { s2 with UserVisits := m }
        let w1 := saveStats { w with stats := s3 } o
        some (w1, Response.home
          ⟨w1.stats.UserVisits.get ip 0, w1.stats.TotalVisits, w1.stats.UniqueVisitors.len⟩)

/-- The function `statsHandler` (lines 105-119): a read-only report. -/
def statsHandler (w : World) (_r : Request) : World × Response :=
  (w, Response.stats w.stats.TotalVisits w.stats.UniqueVisitors.len w.stats.UserVisits.contents)

/-- The function `faviconHandler` (lines 121-124): it does nothing. -/
def faviconHandler (w : World) (_r : Request) : World × Response :=
  (w, Response.empty)

/-- One handler invocation. -/
inductive Call where
  | home (r : Request) (o : SaveOutcome)
  | stats (r : Request)
  | favicon (r : Request)

/-- The effect of one handler invocation on the world; `none` is a panic. -/
def step (w : World) (c : Call) : Option World :=
  match c with
  | Call.home r o => (homeHandler w r o).map Prod.fst
  | Call.stats r => some (statsHandler w r).1
  | Call.favicon r => some (faviconHandler w r).1

/-- A sequence of handler invocations, one after the other. -/
def run : World → List Call → Option World
  | w, [] => some w
  | w, c :: cs =>
    match step w c with
    | none => none
    | some w1 => run w1 cs

/-- The visitor identity a call counts for: that of a home handler invocation on a path
other than the favicon path; no other call counts. -/
def Call.identity (c : Call) : Option String :=
  match c with
  | Call.home r _ => if r.Path = "/favicon.ico" then none else some (getIP r)
  | Call.stats _ => none
  | Call.favicon _ => none

/-- Number of counted invocations in a sequence of calls. -/
def homeCount (cs : List Call) : Nat := cs.countP (fun c => c.identity.isSome)

/-- Number of counted invocations whose visitor identity is `ip`. -/
def visits (ip : String) (cs : List Call) : Nat := cs.countP (fun c => c.identity = some ip)

/-- The value of an `int` variable that held `x` after `n` executions of `++`. -/
def bump (x : Int) : Nat → Int
  | 0 => x
  | n + 1 => bump (wrapInt (x + 1)) n

/-- The world once `main` has run `loadStats` on the file `d` (line 127). -/
def boot (d : Disk) : World := ⟨startup d, d, 0⟩

/-- A sequence of home handler invocations as calls. -/
def homeCalls (cs : List (Request × SaveOutcome)) : List Call :=
  cs.map (fun c => Call.home c.1 c.2)

/-- The data model invariant "total_visits equals the sum of all values in user_visits". -/
def Stats.Consistent (s : Stats) : Prop := s.TotalVisits = sumValues s.UserVisits

instance (s : Stats) : Decidable s.Consistent :=
  inferInstanceAs (Decidable (_ = _))

/-- No visitor has a negative count. -/
def Stats.NonNeg (s : Stats) : Prop :=
  ∀ k ∈ s.UserVisits.contents.keys, 0 ≤ (s.UserVisits.contents.lookup k).getD 0

instance (s : Stats) : Decidable s.NonNeg :=
  inferInstanceAs (Decidable (∀ k ∈ _, _))

/-- A request for the home page from 10.0.0.1. -/
def reqA : Request := ⟨"/", "10.0.0.1:40000"⟩

/-- A request for the home page from 10.0.0.2. -/
def reqB : Request := ⟨"/", "10.0.0.2:40000"⟩

/-- As many home page requests from 10.0.0.1 as there are values of a non-negative
`int` plus one, every save succeeding. -/
def overflowCalls : List (Request × SaveOutcome) := List.replicate (2 ^ 63) (reqA, SaveOutcome.ok)

/-- The file `{"total_visits":5} xyz`: a JSON object followed by bytes that are not JSON. -/
def junkTailFile : FileContent :=
  FileContent.valueThenJunk (Json.obj [("total_visits", Json.int 5)])

/-- A persistence file that holds a total and nothing else. -/
def totalOnlyFile (n : Int) : Disk :=
  some (FileContent.value (Json.obj [("total_visits", Json.int n)]))

/-- The end-to-end scenario of the specification: requests from 10.0.0.1, 10.0.0.2,
10.0.0.1 and 10.0.0.1, every save succeeding. -/
def scenario : List (Request × SaveOutcome) :=
  [(reqA, SaveOutcome.ok), (reqB, SaveOutcome.ok), (reqA, SaveOutcome.ok), (reqA, SaveOutcome.ok)]

/-! ## Goroutines: the home handler statement by statement

The transport runs every request on a goroutine of its own. Below, a call of
`homeHandler` advances one statement at a time, the two `++` being split into the read
and the write, and a scheduler picks which goroutine moves next. `mu.Lock` can only be
taken while the mutex is free. -/

/-- Where a goroutine running `homeHandler` stands. A pending write carries the value
that was read for it. -/
inductive PC where
  | start
  | lock
  | loadTotal
  | storeTotal (t : Int)
  | setUnique
  | loadUser
  | storeUser (t : Int)
  | save
  | readBack
  | unlock (p : HomePage)
  | respond (p : HomePage)
  | done (out : Response)
  | panicked
deriving DecidableEq

/-- A goroutine serving one request: the request, how its call of `saveStats` will fare,
and where it stands. -/
structure Goroutine where
  req : Request
  outcome : SaveOutcome
  pc : PC

/-- What the goroutines share: memory and file, and the state of the mutex `mu`. -/
structure Shared where
  world : World
  locked : Bool

/-- One statement of `homeHandler` (lines 78-102) run by the goroutine `g`; `none` when
the goroutine cannot move: it waits for the mutex, or it has returned or panicked. With
`mutex = false` the statements `mu.Lock()` and `mu.Unlock()` do nothing, which is the
handler without its lock. -/
def goStep (mutex : Bool) (sh : Shared) (g : Goroutine) : Option (Shared × Goroutine) :=
  match g.pc with
  | PC.start =>
    if g.req.Path = "/favicon.ico" then some (sh, { g with pc := PC.done Response.empty })
    else some (sh, { g with pc := PC.lock })
  | PC.lock =>
    if mutex then
      if sh.locked then none
      else some ({ sh with locked := true }, { g with pc := PC.loadTotal })
    else some (sh, { g with pc := PC.loadTotal })
  | PC.loadTotal => some (sh, { g with pc := PC.storeTotal sh.world.stats.TotalVisits })
  | PC.storeTotal t =>
    some ({ sh with world := { sh.world with stats :=
              { sh.world.stats with TotalVisits := wrapInt (t + 1) } } },
          { g with pc := PC.setUnique })
  | PC.setUnique =>
    match sh.world.stats.UniqueVisitors.set (getIP g.req) true with
    | none => some (sh, { g with pc := PC.panicked })
    | some u =>
      some ({ sh with world := { sh.world with stats :=
                { sh.world.stats with UniqueVisitors := u } } },
            { g with pc := PC.loadUser })
  | PC.loadUser =>
    some (sh, { g with pc := PC.storeUser (sh.world.stats.UserVisits.get (getIP g.req) 0) })
  | PC.storeUser t =>
    match sh.world.stats.UserVisits.set (getIP g.req) (wrapInt (t + 1)) with
    | none => some (sh, { g with pc := PC.panicked })
    | some m =>
      some ({ sh with world := { sh.world with stats :=
                { sh.world.stats with UserVisits := m } } },
            { g with pc := PC.save })
  | PC.save => some ({ sh with world := saveStats sh.world g.outcome }, { g with pc := PC.readBack })
  | PC.readBack =>
    some (sh, { g with pc := PC.unlock (HomePage.mk
      (sh.world.stats.UserVisits.get (getIP g.req) 0) sh.world.stats.TotalVisits
      sh.world.stats.UniqueVisitors.len) })
  | PC.unlock p =>
    if mutex then some ({ sh with locked := false }, { g with pc := PC.respond p })
    else some (sh, { g with pc := PC.respond p })
  | PC.respond p => some (sh, { g with pc := PC.done (Response.home p) })
  | PC.done _ => none
  | PC.panicked => none

/-- The shared state and the goroutines in flight. -/
structure Pool where
  shared : Shared
  gs : List Goroutine

/-- The scheduler lets goroutine number `i` run its next statement. -/
def poolStep (mutex : Bool) (p : Pool) (i : Nat) : Option Pool :=
  match p.gs[i]? with
  | none => none
  | some g =>
    match goStep mutex p.shared g with
    | none => none
    | some (sh, g1) => some ⟨sh, p.gs.set i g1⟩

/-- A schedule: the goroutines that move, in order. -/
def exec (mutex : Bool) : Pool → List Nat → Option Pool
  | p, [] => some p
  | p, i :: sched =>
    match poolStep mutex p i with
    | none => none
    | some p1 => exec mutex p1 sched

/-- One goroutine per request, none started yet, the mutex free. -/
def spawn (w : World) (rs : List (Request × SaveOutcome)) : Pool :=
  ⟨⟨w, false⟩, rs.map (fun c => ⟨c.1, c.2, PC.start⟩)⟩

/-- The goroutine has returned from `homeHandler`. -/
def PC.finished (pc : PC) : Bool :=
  match pc with
  | PC.done _ => true
  | _ => false

/-- Every call has completed. -/
def Pool.allDone (p : Pool) : Bool := p.gs.all (fun g => g.pc.finished)

/-- The goroutine holds the mutex (between `mu.Lock()` and `mu.Unlock()`). -/
def PC.critical (pc : PC) : Bool :=
  match pc with
  | PC.loadTotal => true
  | PC.storeTotal _ => true
  | PC.setUnique => true
  | PC.loadUser => true
  | PC.storeUser _ => true
  | PC.save => true
  | PC.readBack => true
  | PC.unlock _ => true
  | _ => false

/-- 1 when the goroutine has written its increment of `UserVisits[ip]`, else 0. -/
def PC.stored (pc : PC) : Nat :=
  match pc with
  | PC.save => 1
  | PC.readBack => 1
  | PC.unlock _ => 1
  | PC.respond _ => 1
  | PC.done _ => 1
  | _ => 0

/-- The schedule that runs the first `n` goroutines one after the other, each through
its eleven statements. -/
def seqSchedule : Nat → List Nat
  | 0 => []
  | n + 1 => seqSchedule n ++ List.replicate 11 n

/-- A schedule of two calls in which the second call runs entirely between the read and
the write of `UserVisits[ip]++` of the first. -/
def racySchedule : List Nat :=
  List.replicate 6 0 ++ List.replicate 11 1 ++ List.replicate 5 0

/-- A schedule of two calls in which the second call starts (and waits at `mu.Lock()`)
while the first is between the read and the write of `UserVisits[ip]++`. -/
def interleavedSchedule : List Nat :=
  List.replicate 6 0 ++ [1] ++ List.replicate 5 0 ++ List.replicate 10 1

/-- Several statements in a row by one goroutine. -/
def goSteps (mutex : Bool) : Nat → Shared → Goroutine → Option (Shared × Goroutine)
  | 0, sh, g => some (sh, g)
  | n + 1, sh, g =>
    match goStep mutex sh g with
    | none => none
    | some (sh1, g1) => goSteps mutex n sh1 g1

/-- What holds of the pool at every moment when all calls are on non-favicon paths from
the identity `v` and `UserVisits[v]` was `c0` at the start: the containers are present;
the mutex is held exactly when some goroutine is between `mu.Lock()` and `mu.Unlock()`,
and by one goroutine only; `UserVisits[v]` is `c0` incremented once per goroutine that
has written its increment; and a value read for a pending write is still current. -/
structure Pool.Inv (v : String) (c0 : Int) (p : Pool) : Prop where
  present : ∃ u m, p.shared.world.stats.UniqueVisitors = some u ∧
    p.shared.world.stats.UserVisits = some m
  reqs : ∀ g ∈ p.gs, g.req.Path ≠ "/favicon.ico" ∧ getIP g.req = v
  holder : ∃ h : Option Nat, p.shared.locked = h.isSome ∧
    ∀ (j : Nat) (g : Goroutine), p.gs[j]? = some g → (g.pc.critical = true ↔ h = some j)
  count : p.shared.world.stats.UserVisits.get v 0
    = bump c0 ((p.gs.map (fun g => g.pc.stored)).sum)
  fresh : ∀ (j : Nat) (g : Goroutine) (x : Int), p.gs[j]? = some g → g.pc = PC.storeUser x →
    x = p.shared.world.stats.UserVisits.get v 0

/-! ## Keys as bytes

A Go string is a sequence of bytes that need not be valid UTF-8, and the keys of the two
maps are Go strings. `encoding/json` writes a map key with every byte that does not
start a valid encoding replaced by U+FFFD. -/

/-- A byte. -/
abbrev Byte := Fin 256

/-- A Go string: any sequence of bytes. -/
abbrev Bytes := List Byte

/-- Lowest second byte that `utf8.DecodeRune` accepts after the first byte `s0`. -/
def acceptLo (s0 : Nat) : Nat := if s0 = 0xE0 then 0xA0 else if s0 = 0xF0 then 0x90 else 0x80

/-- Highest second byte that `utf8.DecodeRune` accepts after the first byte `s0`. -/
def acceptHi (s0 : Nat) : Nat := if s0 = 0xED then 0x9F else if s0 = 0xF4 then 0x8F else 0xBF

/-- A continuation byte (0x80 to 0xBF). -/
def isCont (b : Nat) : Bool := decide (0x80 ≤ b) && decide (b ≤ 0xBF)

/-- The library function `utf8.DecodeRune` on a non-empty string: the rune and its width,
or `none` where Go returns `(RuneError, 1)` for an invalid or truncated encoding. -/
def decodeRune : Bytes → Option (Nat × Nat)
  | [] => none
  | b0 :: t =>
    if b0.val < 0x80 then some (b0.val, 1)
    else if b0.val < 0xC2 then none
    else if b0.val < 0xE0 then
      match t with
      | b1 :: _ =>
        if isCont b1.val then some (b0.val % 32 * 64 + b1.val % 64, 2) else none
      | _ => none
    else if b0.val < 0xF0 then
      match t with
      | b1 :: b2 :: _ =>
        if acceptLo b0.val ≤ b1.val ∧ b1.val ≤ acceptHi b0.val ∧ isCont b2.val = true then
          some (b0.val % 16 * 4096 + b1.val % 64 * 64 + b2.val % 64, 3)
        else none
      | _ => none
    else if b0.val < 0xF5 then
      match t with
      | b1 :: b2 :: b3 :: _ =>
        if acceptLo b0.val ≤ b1.val ∧ b1.val ≤ acceptHi b0.val ∧ isCont b2.val = true
            ∧ isCont b3.val = true then
          some (b0.val % 8 * 262144 + b1.val % 64 * 4096 + b2.val % 64 * 64 + b3.val % 64, 4)
        else none
      | _ => none
    else none

/-- The library function `utf8.AppendRune`: the UTF-8 encoding of a rune. -/
def encodeRune (c : Nat) : Bytes :=
  if c < 0x80 then [Fin.ofNat c]
  else if c < 0x800 then [Fin.ofNat (0xC0 + c / 64), Fin.ofNat (0x80 + c % 64)]
  else if c < 0x10000 then
    [Fin.ofNat (0xE0 + c / 4096), Fin.ofNat (0x80 + c / 64 % 64), Fin.ofNat (0x80 + c % 64)]
  else
    [Fin.ofNat (0xF0 + c / 262144), Fin.ofNat (0x80 + c / 4096 % 64),
      Fin.ofNat (0x80 + c / 64 % 64), Fin.ofNat (0x80 + c % 64)]

/-- The loop of `appendString` in `encoding/json`, at most `fuel` runes: each valid
encoding gives its rune, each other byte gives U+FFFD and is skipped. -/
def coerceAux : Nat → Bytes → List Char
  | 0, _ => []
  | _ + 1, [] => []
  | fuel + 1, b :: t =>
    match decodeRune (b :: t) with
    | some (c, n) => Char.ofNat c :: coerceAux fuel ((b :: t).drop n)
    | none => Char.ofNat 0xFFFD :: coerceAux fuel t

/-- The string that `encoding/json` writes for the Go string `s`. -/
def coerceUTF8 (s : Bytes) : String := ⟨coerceAux s.length s⟩

/-- The loop of `utf8.Valid`, at most `fuel` runes. -/
def validAux : Nat → Bytes → Bool
  | 0, _ => true
  | _ + 1, [] => true
  | fuel + 1, b :: t =>
    match decodeRune (b :: t) with
    | some (_, n) => validAux fuel ((b :: t).drop n)
    | none => false

/-- The library function `utf8.Valid`: the bytes are a sequence of valid encodings. -/
def validUTF8 (s : Bytes) : Bool := validAux s.length s

/-- The bytes of a string of code points. -/
def toBytes (s : String) : Bytes := s.data.flatMap (fun c => encodeRune c.toNat)

/-- Bytewise order on Go strings (`strings.Compare a b ≤ 0`). -/
def leBytes : Bytes → Bytes → Bool
  | [], _ => true
  | _ :: _, [] => false
  | a :: as, b :: bs =>
    if a.val < b.val then true
    else if a.val = b.val then leBytes as bs
    else false

/-- The order in which `encoding/json` writes the keys of a map, on the keys as bytes. -/
def bytesLe (a b : Bytes) : Prop := leBytes a b = true

instance : DecidableRel bytesLe := fun a b => inferInstanceAs (Decidable (leBytes a b = true))

instance : IsTotal Bytes bytesLe := ⟨fun a b => by
  unfold bytesLe
  induction a generalizing b with
  | nil => simp [leBytes]
  | cons c cs ih =>
    cases b with
    | nil => simp [leBytes]
    | cons d ds =>
      rcases Nat.lt_trichotomy c.val d.val with h1 | h1 | h1
      · left; simp [leBytes, h1]
      · rcases ih ds with h | h
        · left; simp [leBytes, h1, h]
        · right; simp [leBytes, h1, h]
      · right; simp [leBytes, h1]⟩

instance : IsTrans Bytes bytesLe := ⟨fun a b c => by
  unfold bytesLe
  induction a generalizing b c with
  | nil => simp [leBytes]
  | cons p ps ih =>
    cases b with
    | nil => simp [leBytes]
    | cons q qs =>
      cases c with
      | nil => simp [leBytes]
      | cons r rs =>
        intro h1 h2
        simp only [leBytes] at h1 h2 ⊢
        split_ifs at h1 h2 ⊢ <;> first
          | rfl
          | exact ih qs rs h1 h2
          | (exfalso; omega)⟩

instance : IsAntisymm Bytes bytesLe := ⟨fun a b => by
  intro h1 h2
  unfold bytesLe at h1 h2
  induction a generalizing b with
  | nil => cases b with
    | nil => rfl
    | cons d ds => simp [leBytes] at h2
  | cons c cs ih =>
    cases b with
    | nil => simp [leBytes] at h1
    | cons d ds =>
      simp only [leBytes] at h1 h2
      split_ifs at h1 h2 <;> first
        | (exfalso; omega)
        | (have ht := ih ds h1 h2
           have hc : c = d := Fin.ext ‹c.val = d.val›
           rw [ht, hc])⟩

/-- Contents of a non-nil `map[string]α`, the keys as bytes. -/
abbrev RawMap (α : Type) := Finmap (fun _ : Bytes => α)

/-- The keys of a map in the order `encoding/json` writes them (sorted bytewise). -/
def rawSortedKeys {α : Type} (m : RawMap α) : List Bytes :=
  Quot.liftOn m.keys.val (List.insertionSort bytesLe) (fun a b h =>
    List.eq_of_perm_of_sorted
      (((List.perm_insertionSort bytesLe a).trans h).trans
        (List.perm_insertionSort bytesLe b).symm)
      (List.sorted_insertionSort bytesLe a) (List.sorted_insertionSort bytesLe b))

/-- The struct `Stats` (lines 13-17) with the keys of its maps as Go holds them: byte
strings, valid UTF-8 or not. -/
structure RawStats where
  TotalVisits : Int
  UniqueVisitors : Option (RawMap Bool)
  UserVisits : Option (RawMap Int)
deriving DecidableEq

/-- Encoding of a map with byte-string keys: `null` for the nil map, else an object with
the keys sorted bytewise, each written through `coerceUTF8`. -/
def encodeRawMap {α : Type} (enc : α → Json) (m : Option (RawMap α)) : Json :=
  match m with
  | none => Json.null
  | some f =>
    Json.obj ((rawSortedKeys f).filterMap
      (fun k => (f.lookup k).map (fun v => (coerceUTF8 k, enc v))))

/-- The value `json.NewEncoder(f).Encode(&stats)` writes (line 65) when `stats` holds `r`. -/
def encodeRawStats (r : RawStats) : Json :=
  Json.obj
    [ ("total_visits", Json.int r.TotalVisits),
      ("unique_visitors", encodeRawMap Json.bool r.UniqueVisitors),
      ("user_visits", encodeRawMap Json.int r.UserVisits) ]

/-- The file after a successful `saveStats` (lines 58-69) when `stats` holds `r`. -/
def savedFile (r : RawStats) : Disk := some (FileContent.value (encodeRawStats r))

/-- Every stored integer of the record is a Go `int`. -/
def RawStats.InRange (r : RawStats) : Prop :=
  isInt r.TotalVisits = true ∧
    ∀ k ∈ (r.UserVisits.getD ∅).keys, isInt (((r.UserVisits.getD ∅).lookup k).getD 0) = true

instance (r : RawStats) : Decidable r.InRange :=
  inferInstanceAs (Decidable (_ ∧ _))

/-- Every visitor identity of the record is valid UTF-8. -/
def RawStats.ValidKeys (r : RawStats) : Prop :=
  (∀ k ∈ (r.UniqueVisitors.getD ∅).keys, validUTF8 k = true) ∧
    ∀ k ∈ (r.UserVisits.getD ∅).keys, validUTF8 k = true

instance (r : RawStats) : Decidable r.ValidKeys :=
  inferInstanceAs (Decidable (_ ∧ _))

/-- The entry that a map with decoded keys holds for the Go string `b`: `b` is the
encoding of a key exactly when it is valid UTF-8, and the key is then its decoding. -/
def lookupBytes {α : Type} (m : GoMap α) (b : Bytes) : Option α :=
  if validUTF8 b then m.contents.lookup (coerceUTF8 b) else none

/-- A map with decoded keys as Go holds it: every key by its bytes. -/
def rawMap {α : Type} (m : StrMap α) : RawMap α :=
  List.toFinmap ((sortedKeys m).filterMap
    (fun k => (m.lookup k).map (fun v => (⟨toBytes k, v⟩ : Sigma (fun _ : Bytes => α)))))

/-- A record with decoded keys as Go holds it. -/
def Stats.raw (s : Stats) : RawStats :=
  ⟨s.TotalVisits, s.UniqueVisitors.map rawMap, s.UserVisits.map rawMap⟩

/-- The record after the end-to-end scenario, its keys as decoded strings. -/
def sampleStats : Stats :=
  ⟨4, some (Finmap.insert "10.0.0.2" true (Finmap.insert "10.0.0.1" true ∅)),
    some (Finmap.insert "10.0.0.2" (1 : Int) (Finmap.insert "10.0.0.1" (3 : Int) ∅))⟩

/-- The record after the end-to-end scenario, its keys as bytes. -/
def sampleRaw : RawStats :=
  ⟨4, some (Finmap.insert (toBytes "10.0.0.2") true (Finmap.insert (toBytes "10.0.0.1") true ∅)),
    some (Finmap.insert (toBytes "10.0.0.2") (1 : Int)
      (Finmap.insert (toBytes "10.0.0.1") (3 : Int) ∅))⟩

/-- A record with the two visitor identities 0xFE and 0xFF, neither valid UTF-8, seen
once and twice. -/
def invalidKeysRaw : RawStats :=
  ⟨3, some (Finmap.insert [0xFF] true (Finmap.insert [0xFE] true ∅)),
    some (Finmap.insert [0xFF] (2 : Int) (Finmap.insert [0xFE] (1 : Int) ∅))⟩

/-- The responses of a sequence of home handler invocations. -/
def homeResponses : World → List (Request × SaveOutcome) → List (Option Response)
  | _, [] => []
  | w, (r, o) :: cs =>
    match homeHandler w r o with
    | none => [none]
    | some (w1, p) => some p :: homeResponses w1 cs

end VisitorCounter

namespace VisitorCounter

/-! ## Arithmetic of Go integers -/

theorem wrapInt_of_isInt (n : Int) (h : isInt n = true) : wrapInt n = n := by
  simp only [isInt, minInt, maxInt, Bool.and_eq_true, decide_eq_true_eq] at h
  unfold wrapInt
  omega

theorem wrapInt_succ_wrapInt (a b : Int) : wrapInt (wrapInt a + b) = wrapInt (a + b) := by
  unfold wrapInt
  omega

/-! ## Finite maps -/

theorem keys_insert {α : Type} (m : StrMap α) (k : String) (v : α) :
    (m.insert k v).keys = insert k m.keys := by
  ext x
  simp [Finmap.mem_keys, Finmap.mem_insert]

theorem sumValues_insert (m : StrMap Int) (k : String) (v : Int) :
    sumValues (some (m.insert k v)) = sumValues (some m) - (m.lookup k).getD 0 + v := by
  have h1 : ∀ x ∈ m.keys.erase k,
      ((m.insert k v).lookup x).getD 0 = (m.lookup x).getD 0 := by
    intro x hx
    rw [Finmap.lookup_insert_of_ne _ (Finset.ne_of_mem_erase hx)]
  have h2 : (∑ x in m.keys, (m.lookup x).getD 0)
      = (m.lookup k).getD 0 + ∑ x in m.keys.erase k, (m.lookup x).getD 0 := by
    by_cases hk : k ∈ m.keys
    · exact (Finset.add_sum_erase _ _ hk).symm
    · have hn : m.lookup k = none := Finmap.lookup_eq_none.mpr (fun h => hk (Finmap.mem_keys.mpr h))
      rw [Finset.erase_eq_of_not_mem hk, hn]
      simp
  have h3 : (∑ x in (m.insert k v).keys, ((m.insert k v).lookup x).getD 0)
      = v + ∑ x in m.keys.erase k, ((m.insert k v).lookup x).getD 0 := by
    rw [keys_insert, ← Finset.add_sum_erase _ _ (Finset.mem_insert_self k m.keys),
      Finset.erase_insert_eq_erase, Finmap.lookup_insert]
    rfl
  simp only [sumValues, GoMap.contents, Option.getD_some]
  rw [h3, h2, Finset.sum_congr rfl h1]
  ring

theorem bump_eq_wrapInt (x : Int) (n : Nat) : bump x (n + 1) = wrapInt (x + (n + 1 : Nat)) := by
  induction n generalizing x with
  | zero => simp [bump]
  | succ n ih =>
    rw [bump, ih, wrapInt_succ_wrapInt]
    congr 1
    push_cast
    ring

/-! ## The handlers, step by step -/

theorem saveStats_stats (w : World) (o : SaveOutcome) : (saveStats w o).stats = w.stats := by
  cases o <;> rfl

theorem homeHandler_favicon (w : World) (r : Request) (o : SaveOutcome)
    (hp : r.Path = "/favicon.ico") : homeHandler w r o = some (w, Response.empty) := by
  simp [homeHandler, hp]

theorem homeHandler_eq (w : World) (r : Request) (o : SaveOutcome) (u : StrMap Bool)
    (m : StrMap Int) (hu : w.stats.UniqueVisitors = some u) (hm : w.stats.UserVisits = some m)
    (hp : r.Path ≠ "/favicon.ico") :
    homeHandler w r o = some
      (saveStats
        { w with stats :=
            ⟨wrapInt (w.stats.TotalVisits + 1), some (u.insert (getIP r) true),
              some (m.insert (getIP r) (wrapInt ((m.lookup (getIP r)).getD 0 + 1)))⟩ } o,
       Response.home
        ⟨wrapInt ((m.lookup (getIP r)).getD 0 + 1), wrapInt (w.stats.TotalVisits + 1),
          ((u.insert (getIP r) true).keys.card : Int)⟩) := by
  simp [homeHandler, hp, hu, hm, GoMap.set, GoMap.get, GoMap.len, saveStats_stats]

/-- One call from a world whose containers are present: it does not panic, the containers
stay present, and a counted call from `ip` adds one to the total and to the count of `ip`
and inserts `ip` in the set, every other call leaving the record as it is. -/
theorem step_spec (w : World) (c : Call) (u : StrMap Bool) (m : StrMap Int)
    (hu : w.stats.UniqueVisitors = some u) (hm : w.stats.UserVisits = some m) :
    ∃ w1, step w c = some w1 ∧
      w1.stats =
        match c.identity with
        | none => w.stats
        | some ip =>
          ⟨wrapInt (w.stats.TotalVisits + 1), some (u.insert ip true),
            some (m.insert ip (wrapInt ((m.lookup ip).getD 0 + 1)))⟩ := by
  cases c with
  | home r o =>
    by_cases hp : r.Path = "/favicon.ico"
    · exact ⟨w, by simp [step, homeHandler_favicon w r o hp], by simp [Call.identity, hp]⟩
    · rw [step, homeHandler_eq w r o u m hu hm hp]
      exact ⟨_, rfl, by simp [Call.identity, hp, saveStats_stats]⟩
  | stats r => exact ⟨w, rfl, rfl⟩
  | favicon r => exact ⟨w, rfl, rfl⟩

/-- A sequence of calls from a world whose containers are present: it does not panic, the
total has been incremented once per counted call, and so has the count of each identity,
which is in the set as soon as it has one counted call. -/
theorem run_spec (cs : List Call) : ∀ (w : World) (u : StrMap Bool) (m : StrMap Int),
    w.stats.UniqueVisitors = some u → w.stats.UserVisits = some m →
    ∃ w1 u1 m1, run w cs = some w1 ∧
      w1.stats.TotalVisits = bump w.stats.TotalVisits (homeCount cs) ∧
      w1.stats.UniqueVisitors = some u1 ∧ w1.stats.UserVisits = some m1 ∧
      (∀ k, u1.lookup k = if visits k cs = 0 then u.lookup k else some true) ∧
      (∀ k, m1.lookup k =
        if visits k cs = 0 then m.lookup k
        else some (bump ((m.lookup k).getD 0) (visits k cs))) := by
  induction cs with
  | nil =>
    intro w u m hu hm
    exact ⟨w, u, m, rfl, rfl, hu, hm, by simp [visits], by simp [visits]⟩
  | cons c cs ih =>
    intro w u m hu hm
    obtain ⟨w1, hs, hw1⟩ := step_spec w c u m hu hm
    cases hc : c.identity with
    | none =>
      rw [hc] at hw1
      obtain ⟨w2, u2, m2, hr, ht, hu2, hm2, hlu, hlm⟩ :=
        ih w1 u m (by rw [hw1]; exact hu) (by rw [hw1]; exact hm)
      refine ⟨w2, u2, m2, by simp [run, hs, hr], ?_, hu2, hm2, ?_, ?_⟩
      · rw [ht, hw1]; simp [homeCount, List.countP_cons, hc]
      · intro k; rw [hlu k]; simp [visits, List.countP_cons, hc]
      · intro k; rw [hlm k]; simp [visits, List.countP_cons, hc]
    | some ip =>
      rw [hc] at hw1
      obtain ⟨w2, u2, m2, hr, ht, hu2, hm2, hlu, hlm⟩ :=
        ih w1 _ _ (by rw [hw1]) (by rw [hw1])
      refine ⟨w2, u2, m2, by simp [run, hs, hr], ?_, hu2, hm2, ?_, ?_⟩
      · rw [ht, hw1]; simp [homeCount, List.countP_cons, hc, bump]
      · intro k
        rw [hlu k]
        by_cases hk : k = ip
        · subst hk
          simp [visits, List.countP_cons, hc, Finmap.lookup_insert]
        · have hne : ¬ ip = k := fun h => hk h.symm
          simp [visits, List.countP_cons, hc, hne, Finmap.lookup_insert_of_ne _ hk]
      · intro k
        rw [hlm k]
        by_cases hk : k = ip
        · subst hk
          by_cases hv : visits k cs = 0
          · have hv2 : List.countP (fun c => decide (c.identity = some k)) cs = 0 := hv
            simp [visits, List.countP_cons, hc, Finmap.lookup_insert, hv2, bump]
          · have hv2 := hv
            simp only [visits] at hv2
            simp [visits, List.countP_cons, hc, Finmap.lookup_insert, hv2, bump]
        · have hne : ¬ ip = k := fun h => hk h.symm
          simp [visits, List.countP_cons, hc, hne, Finmap.lookup_insert_of_ne _ hk]

theorem bump_zero (n : Nat) : bump 0 n = wrapInt n := by
  cases n with
  | zero => simp [bump, wrapInt]
  | succ n => rw [bump_eq_wrapInt]; simp

/-- From the empty record the state after any sequence of calls is determined by the
numbers of counted calls: no panic, the total is the wrapped number of counted calls, and
an identity is in both containers exactly when it has a counted call, its count being the
wrapped number of its counted calls. -/
theorem run_empty_spec (cs : List Call) (disk : Disk) (saves : Nat) :
    ∃ w1 u1 m1, run ⟨emptyStats, disk, saves⟩ cs = some w1 ∧
      w1.stats.TotalVisits = wrapInt (homeCount cs) ∧
      w1.stats.UniqueVisitors = some u1 ∧ w1.stats.UserVisits = some m1 ∧
      (∀ k, u1.lookup k = if visits k cs = 0 then none else some true) ∧
      (∀ k, m1.lookup k = if visits k cs = 0 then none else some (wrapInt (visits k cs))) := by
  obtain ⟨w1, u1, m1, hr, ht, hu, hm, hlu, hlm⟩ :=
    run_spec cs ⟨emptyStats, disk, saves⟩ ∅ ∅ rfl rfl
  refine ⟨w1, u1, m1, hr, ?_, hu, hm, ?_, ?_⟩
  · rw [ht]; exact bump_zero _
  · intro k; rw [hlu k]; simp
  · intro k; rw [hlm k]; simp [bump_zero]

theorem wrapInt_natCast (n : Nat) (h : n < 2 ^ 63) : wrapInt n = n := by
  apply wrapInt_of_isInt
  simp only [isInt, minInt, maxInt, Bool.and_eq_true, decide_eq_true_eq]
  omega

theorem visits_le (k : String) (cs : List Call) : visits k cs ≤ cs.length :=
  List.countP_le_length _

theorem lookup_le_sumValues (m : StrMap Int)
    (hn : ∀ k ∈ m.keys, 0 ≤ (m.lookup k).getD 0) (k : String) :
    (m.lookup k).getD 0 ≤ sumValues (some m) := by
  simp only [sumValues, GoMap.contents, Option.getD_some]
  by_cases hk : k ∈ m.keys
  · exact Finset.single_le_sum (f := fun x => (m.lookup x).getD 0) (fun i hi => hn i hi) hk
  · have h0 : m.lookup k = none := Finmap.lookup_eq_none.mpr (fun h => hk (Finmap.mem_keys.mpr h))
    rw [h0]
    exact Finset.sum_nonneg (fun i hi => hn i hi)

/-- One call keeps the invariant "total = sum of the counts" as long as the total is
below the largest `int`, the containers are present and no count is negative. -/
theorem step_consistent (w : World) (c : Call) (u : StrMap Bool) (m : StrMap Int)
    (hu : w.stats.UniqueVisitors = some u) (hm : w.stats.UserVisits = some m)
    (hc : w.stats.Consistent) (hn : w.stats.NonNeg) (hb : w.stats.TotalVisits < maxInt) :
    ∃ w1 u1 m1, step w c = some w1 ∧ w1.stats.UniqueVisitors = some u1 ∧
      w1.stats.UserVisits = some m1 ∧ w1.stats.Consistent ∧ w1.stats.NonNeg ∧
      w1.stats.TotalVisits ≤ w.stats.TotalVisits + 1 := by
  obtain ⟨w1, hs, hw1⟩ := step_spec w c u m hu hm
  cases hi : c.identity with
  | none =>
    rw [hi] at hw1
    dsimp only at hw1
    refine ⟨w1, u, m, hs, by rw [hw1]; exact hu, by rw [hw1]; exact hm, ?_, ?_, ?_⟩
    · rw [hw1]; exact hc
    · rw [hw1]; exact hn
    · rw [hw1]; omega
  | some ip =>
    rw [hi] at hw1
    dsimp only at hw1
    simp only [Stats.Consistent, Stats.NonNeg, hm, GoMap.contents, Option.getD_some] at hc hn
    have hle := lookup_le_sumValues m hn ip
    have h0 : 0 ≤ (m.lookup ip).getD 0 := by
      by_cases hk : ip ∈ m.keys
      · exact hn ip hk
      · have hnone : m.lookup ip = none :=
          Finmap.lookup_eq_none.mpr (fun h => hk (Finmap.mem_keys.mpr h))
        rw [hnone]; rfl
    have h0T : 0 ≤ w.stats.TotalVisits := by rw [hc]; exact le_trans h0 hle
    have hwT : wrapInt (w.stats.TotalVisits + 1) = w.stats.TotalVisits + 1 := by
      apply wrapInt_of_isInt
      simp only [isInt, minInt, maxInt, Bool.and_eq_true, decide_eq_true_eq] at *
      omega
    have hwv : wrapInt ((m.lookup ip).getD 0 + 1) = (m.lookup ip).getD 0 + 1 := by
      apply wrapInt_of_isInt
      simp only [isInt, minInt, maxInt, Bool.and_eq_true, decide_eq_true_eq] at *
      omega
    refine ⟨w1, _, _, hs, by rw [hw1], by rw [hw1], ?_, ?_, ?_⟩
    · rw [hw1]
      simp only [Stats.Consistent]
      rw [sumValues_insert, hwT, hwv, hc]
      ring
    · rw [hw1]
      simp only [Stats.NonNeg, GoMap.contents, Option.getD_some]
      intro k hk
      by_cases hki : k = ip
      · subst hki
        rw [Finmap.lookup_insert, hwv]
        simp only [Option.getD_some]
        omega
      · rw [Finmap.lookup_insert_of_ne _ hki]
        rw [keys_insert, Finset.mem_insert] at hk
        rcases hk with hk | hk
        · exact absurd hk hki
        · exact hn k hk
    · rw [hw1, hwT]

/-- A sequence of calls keeps the invariant "total = sum of the counts" when it holds at
the start with no negative count and the total has room for one increment per call. -/
theorem run_consistent (cs : List Call) : ∀ (w : World) (u : StrMap Bool) (m : StrMap Int),
    w.stats.UniqueVisitors = some u → w.stats.UserVisits = some m →
    w.stats.Consistent → w.stats.NonNeg → w.stats.TotalVisits + cs.length ≤ maxInt →
    ∃ w1, run w cs = some w1 ∧ w1.stats.Consistent ∧ w1.stats.NonNeg := by
  induction cs with
  | nil => intro w u m _ _ hc hn _; exact ⟨w, rfl, hc, hn⟩
  | cons c cs ih =>
    intro w u m hu hm hc hn hb
    simp only [List.length_cons, Nat.cast_add, Nat.cast_one] at hb
    obtain ⟨w1, u1, m1, hs, hu1, hm1, hc1, hn1, hle⟩ :=
      step_consistent w c u m hu hm hc hn (by omega)
    obtain ⟨w2, hr, hc2, hn2⟩ := ih w1 u1 m1 hu1 hm1 hc1 hn1 (by omega)
    exact ⟨w2, by simp [run, hs, hr], hc2, hn2⟩

theorem identity_home (r : Request) (o : SaveOutcome) (hp : r.Path ≠ "/favicon.ico") :
    (Call.home r o).identity = some (getIP r) := by
  simp [Call.identity, hp]

theorem homeCount_homeCalls (cs : List (Request × SaveOutcome))
    (hp : ∀ c ∈ cs, c.1.Path ≠ "/favicon.ico") : homeCount (homeCalls cs) = cs.length := by
  induction cs with
  | nil => rfl
  | cons c cs ih =>
    have h1 := identity_home c.1 c.2 (hp c (List.mem_cons_self _ _))
    have h2 := ih (fun d hd => hp d (List.mem_cons_of_mem _ hd))
    have h3 : homeCount (homeCalls (c :: cs))
        = homeCount (homeCalls cs) + if (Call.home c.1 c.2).identity.isSome = true then 1 else 0 :=
      List.countP_cons _ _ _
    rw [h3, h2, h1]
    rfl

theorem visits_homeCalls (v : String) (cs : List (Request × SaveOutcome))
    (hp : ∀ c ∈ cs, c.1.Path ≠ "/favicon.ico") :
    visits v (homeCalls cs) = cs.countP (fun c => getIP c.1 = v) := by
  induction cs with
  | nil => rfl
  | cons c cs ih =>
    have h1 := identity_home c.1 c.2 (hp c (List.mem_cons_self _ _))
    have h2 := ih (fun d hd => hp d (List.mem_cons_of_mem _ hd))
    have h3 : visits v (homeCalls (c :: cs))
        = visits v (homeCalls cs)
          + if decide ((Call.home c.1 c.2).identity = some v) = true then 1 else 0 :=
      List.countP_cons _ _ _
    rw [h3, h2, h1, List.countP_cons]
    simp

theorem emptyStats_consistent : emptyStats.Consistent := by decide

theorem emptyStats_nonNeg : emptyStats.NonNeg := by decide

theorem overflowCalls_path : ∀ c ∈ overflowCalls, c.1.Path ≠ "/favicon.ico" := by
  intro c hc
  rw [List.eq_of_mem_replicate hc]
  decide

theorem overflowCalls_length : overflowCalls.length = 2 ^ 63 := List.length_replicate _ _

theorem overflowCalls_visits : visits "10.0.0.1" (homeCalls overflowCalls) = 2 ^ 63 := by
  rw [visits_homeCalls _ _ overflowCalls_path, overflowCalls, List.countP_replicate,
    if_pos (by decide)]

theorem wrapInt_two_pow : wrapInt ((2 ^ 63 : Nat) : Int) = -(2 ^ 63) := by
  decide

theorem ensureMaps_present (s : Stats) :
    ∃ u m, (ensureMaps s).UniqueVisitors = some u ∧ (ensureMaps s).UserVisits = some m := by
  obtain ⟨t, u, m⟩ := s
  cases u <;> cases m <;> simp [ensureMaps]

theorem loadStats_present (cur : Stats) (d : Disk) :
    ∃ u m, (loadStats cur d).UniqueVisitors = some u ∧ (loadStats cur d).UserVisits = some m := by
  cases d with
  | none => exact ⟨∅, ∅, rfl, rfl⟩
  | some c =>
    simp only [loadStats]
    cases decodeFile cur c with
    | none => exact ensureMaps_present _
    | some t => exact ensureMaps_present _

theorem run_isSome (cs : List Call) (w : World) (u : StrMap Bool) (m : StrMap Int)
    (hu : w.stats.UniqueVisitors = some u) (hm : w.stats.UserVisits = some m) :
    (run w cs).isSome = true := by
  obtain ⟨w1, _, _, hr, _⟩ := run_spec cs w u m hu hm
  rw [hr]
  rfl

/-! ## Encoding followed by decoding -/

theorem mem_sortedKeys {α : Type} (f : StrMap α) (k : String) : k ∈ sortedKeys f ↔ k ∈ f := by
  rw [← Finmap.mem_keys, ← Finset.mem_val]
  unfold sortedKeys
  generalize f.keys.val = ms
  induction ms using Quot.inductionOn with
  | h l => exact (List.perm_insertionSort keyLe l).mem_iff

/-- Decoding the members written for the keys `ks` of `f` stores exactly the entries of
`f` under those keys, on top of what the map held. -/
theorem decodeEntries_encode {α : Type} (enc : α → Json) (dec : Json → Option α)
    (f : StrMap α) (hd : ∀ k v, f.lookup k = some v → dec (enc v) = some v) :
    ∀ (ks : List String) (m0 : StrMap α),
      ∃ m1, decodeEntries dec m0
          (ks.filterMap (fun k => (f.lookup k).map (fun v => (k, enc v)))) = some m1 ∧
        ∀ k, m1.lookup k = if k ∈ ks ∧ k ∈ f then f.lookup k else m0.lookup k := by
  intro ks
  induction ks with
  | nil => intro m0; exact ⟨m0, rfl, by simp⟩
  | cons k0 ks ih =>
    intro m0
    cases hk0 : f.lookup k0 with
    | none =>
      have hnot : k0 ∉ f := Finmap.lookup_eq_none.mp hk0
      obtain ⟨m1, h1, h2⟩ := ih m0
      refine ⟨m1, by simp [List.filterMap_cons, hk0, h1], ?_⟩
      intro k
      rw [h2 k]
      by_cases hk : k = k0
      · subst hk; simp [hnot]
      · simp [hk]
    | some v =>
      have hin : k0 ∈ f := Finmap.mem_of_lookup_eq_some hk0
      obtain ⟨m1, h1, h2⟩ := ih (m0.insert k0 v)
      refine ⟨m1, by simp [List.filterMap_cons, hk0, decodeEntries, hd k0 v hk0, h1], ?_⟩
      intro k
      rw [h2 k]
      by_cases hk : k = k0
      · subst hk
        by_cases hks : k ∈ ks
        · simp [hks, hin]
        · simp [hks, hin, Finmap.lookup_insert, hk0]
      · simp [hk, Finmap.lookup_insert_of_ne _ hk]

theorem decodeMap_encodeMap {α : Type} (enc : α → Json) (dec : Json → Option α)
    (m : GoMap α) (hd : ∀ k v, m.contents.lookup k = some v → dec (enc v) = some v) :
    decodeMap dec none (encodeMap enc m) = some m := by
  cases m with
  | none => rfl
  | some f =>
    obtain ⟨m1, h1, h2⟩ := decodeEntries_encode enc dec f hd (sortedKeys f) ∅
    have hm : m1 = f := by
      apply Finmap.ext_lookup
      intro k
      rw [h2 k]
      by_cases hk : k ∈ f
      · simp [hk, mem_sortedKeys]
      · simp [hk, Finmap.lookup_eq_none.mpr hk]
    subst hm
    simp only [encodeMap, decodeMap, GoMap.contents, Option.getD_none, h1, Option.map_some']

theorem foldName_unique_ne_total :
    (foldName "unique_visitors" = foldName "total_visits") = False :=
  eq_false (by decide)

theorem foldName_user_ne_total : (foldName "user_visits" = foldName "total_visits") = False :=
  eq_false (by decide)

theorem foldName_user_ne_unique :
    (foldName "user_visits" = foldName "unique_visitors") = False :=
  eq_false (by decide)

/-- Decoding, into the zero record, what the encoder writes for a record of Go ints gives
that record back, nil containers included. -/
theorem decodeStats_encodeStats (s : Stats) (h : s.InRange) :
    decodeStats zeroStats (encodeStats s) = some s := by
  obtain ⟨hT, hV⟩ := h
  have hb : decodeMap (decodeBool false) none (encodeMap Json.bool s.UniqueVisitors)
      = some s.UniqueVisitors := decodeMap_encodeMap _ _ _ (fun _ _ _ => rfl)
  have hi : decodeMap (decodeInt 0) none (encodeMap Json.int s.UserVisits)
      = some s.UserVisits := by
    apply decodeMap_encodeMap
    intro k v hkv
    have hk : k ∈ s.UserVisits.contents.keys :=
      Finmap.mem_keys.mpr (Finmap.mem_of_lookup_eq_some hkv)
    have hv := hV k hk
    rw [hkv] at hv
    simp only [Option.getD_some] at hv
    simp [decodeInt, hv]
  simp [decodeStats, encodeStats, decodeFields, decodeField, zeroStats, decodeInt, hT,
    foldName_unique_ne_total, foldName_user_ne_total, foldName_user_ne_unique, hb, hi]

/-! ## Goroutines under the mutex -/

theorem bump_succ_right (x : Int) (n : Nat) : bump x (n + 1) = wrapInt (bump x n + 1) := by
  induction n generalizing x with
  | zero => rfl
  | succ n ih =>
    show bump (wrapInt (x + 1)) (n + 1) = wrapInt (bump (wrapInt (x + 1)) n + 1)
    exact ih _

theorem sum_map_set {α : Type} (f : α → Nat) :
    ∀ (l : List α) (i : Nat) (a b : α), l[i]? = some a →
      ((l.set i b).map f).sum + f a = (l.map f).sum + f b := by
  intro l
  induction l with
  | nil => intro i a b h; simp at h
  | cons c l ih =>
    intro i a b h
    cases i with
    | zero =>
      simp only [List.getElem?_cons_zero, Option.some.injEq] at h
      subst h
      simp only [List.set_cons_zero, List.map_cons, List.sum_cons]
      omega
    | succ i =>
      simp only [List.getElem?_cons_succ] at h
      have := ih i a b h
      simp only [List.set_cons_succ, List.map_cons, List.sum_cons]
      omega

theorem set_of_getElem? {α : Type} :
    ∀ (l : List α) (i : Nat) (a : α), l[i]? = some a → l.set i a = l := by
  intro l
  induction l with
  | nil => intro i a _; rfl
  | cons c l ih =>
    intro i a h
    cases i with
    | zero =>
      simp only [List.getElem?_cons_zero, Option.some.injEq] at h
      subst h
      rfl
    | succ i =>
      simp only [List.getElem?_cons_succ] at h
      simp only [List.set_cons_succ, ih i a h]

theorem sum_map_eq_length {α : Type} (f : α → Nat) (l : List α) (h : ∀ a ∈ l, f a = 1) :
    (l.map f).sum = l.length := by
  induction l with
  | nil => rfl
  | cons c l ih =>
    simp only [List.map_cons, List.sum_cons, List.length_cons,
      h c (List.mem_cons_self _ _), ih (fun a ha => h a (List.mem_cons_of_mem _ ha))]
    omega

theorem sum_map_eq_zero {α : Type} (f : α → Nat) (l : List α) (h : ∀ a ∈ l, f a = 0) :
    (l.map f).sum = 0 := by
  induction l with
  | nil => rfl
  | cons c l ih =>
    simp only [List.map_cons, List.sum_cons,
      h c (List.mem_cons_self _ _), ih (fun a ha => h a (List.mem_cons_of_mem _ ha))]

/-- One statement of a goroutine serving a non-favicon request from `v`, the containers
being present and a value read for a pending write being current: the goroutine takes
the free mutex, or releases it, or writes its increment of `UserVisits[v]` while holding
it, or does something that changes neither the mutex nor `UserVisits[v]`. -/
theorem goStep_spec (sh sh1 : Shared) (g g1 : Goroutine) (v : String)
    (hpres : ∃ u m, sh.world.stats.UniqueVisitors = some u ∧ sh.world.stats.UserVisits = some m)
    (hp : g.req.Path ≠ "/favicon.ico") (hv : getIP g.req = v)
    (hfresh : ∀ x, g.pc = PC.storeUser x → x = sh.world.stats.UserVisits.get v 0)
    (hstep : goStep true sh g = some (sh1, g1)) :
    g1.req = g.req ∧
    (∃ u m, sh1.world.stats.UniqueVisitors = some u ∧ sh1.world.stats.UserVisits = some m) ∧
    (∀ x, g1.pc = PC.storeUser x → x = sh1.world.stats.UserVisits.get v 0) ∧
    ((g.pc.critical = false ∧ sh.locked = false ∧ sh1.locked = true ∧ g1.pc.critical = true ∧
        sh1.world.stats.UserVisits.get v 0 = sh.world.stats.UserVisits.get v 0 ∧
        g1.pc.stored = g.pc.stored) ∨
      (g.pc.critical = true ∧ g1.pc.critical = false ∧ sh1.locked = false ∧
        sh1.world.stats.UserVisits.get v 0 = sh.world.stats.UserVisits.get v 0 ∧
        g1.pc.stored = g.pc.stored) ∨
      (g.pc.critical = true ∧ g1.pc.critical = true ∧ sh1.locked = sh.locked ∧
        sh1.world.stats.UserVisits.get v 0
          = wrapInt (sh.world.stats.UserVisits.get v 0 + 1) ∧
        g.pc.stored = 0 ∧ g1.pc.stored = 1) ∨
      (g1.pc.critical = g.pc.critical ∧ sh1.locked = sh.locked ∧
        sh1.world.stats.UserVisits.get v 0 = sh.world.stats.UserVisits.get v 0 ∧
        g1.pc.stored = g.pc.stored)) := by
  obtain ⟨u, m, hu, hm⟩ := hpres
  obtain ⟨req, out, pc⟩ := g
  obtain ⟨w, locked⟩ := sh
  simp only at hp hv hu hm hfresh
  cases pc with
  | start =>
    simp only [goStep, hp, if_false, Option.some.injEq, Prod.mk.injEq] at hstep
    obtain ⟨rfl, rfl⟩ := hstep
    exact ⟨rfl, ⟨u, m, hu, hm⟩, by simp, Or.inr (Or.inr (Or.inr ⟨rfl, rfl, rfl, rfl⟩))⟩
  | lock =>
    cases locked with
    | true => simp [goStep] at hstep
    | false =>
      simp only [goStep, if_true, Bool.false_eq_true, if_false, Option.some.injEq,
        Prod.mk.injEq] at hstep
      obtain ⟨rfl, rfl⟩ := hstep
      exact ⟨rfl, ⟨u, m, hu, hm⟩, by simp, Or.inl ⟨rfl, rfl, rfl, rfl, rfl, rfl⟩⟩
  | loadTotal =>
    simp only [goStep, Option.some.injEq, Prod.mk.injEq] at hstep
    obtain ⟨rfl, rfl⟩ := hstep
    exact ⟨rfl, ⟨u, m, hu, hm⟩, by simp, Or.inr (Or.inr (Or.inr ⟨rfl, rfl, rfl, rfl⟩))⟩
  | storeTotal t =>
    simp only [goStep, Option.some.injEq, Prod.mk.injEq] at hstep
    obtain ⟨rfl, rfl⟩ := hstep
    exact ⟨rfl, ⟨u, m, hu, hm⟩, by simp, Or.inr (Or.inr (Or.inr ⟨rfl, rfl, rfl, rfl⟩))⟩
  | setUnique =>
    simp only [goStep, hu, GoMap.set, Option.some.injEq, Prod.mk.injEq] at hstep
    obtain ⟨rfl, rfl⟩ := hstep
    exact ⟨rfl, ⟨_, m, rfl, hm⟩, by simp, Or.inr (Or.inr (Or.inr ⟨rfl, rfl, rfl, rfl⟩))⟩
  | loadUser =>
    simp only [goStep, Option.some.injEq, Prod.mk.injEq] at hstep
    obtain ⟨rfl, rfl⟩ := hstep
    refine ⟨rfl, ⟨u, m, hu, hm⟩, ?_, Or.inr (Or.inr (Or.inr ⟨rfl, rfl, rfl, rfl⟩))⟩
    intro x hx
    simp only [PC.storeUser.injEq] at hx
    rw [← hx, hv]
  | storeUser t =>
    have ht := hfresh t rfl
    simp only [goStep, hm, GoMap.set, Option.some.injEq, Prod.mk.injEq] at hstep
    obtain ⟨rfl, rfl⟩ := hstep
    refine ⟨rfl, ⟨u, _, hu, rfl⟩, by simp, Or.inr (Or.inr (Or.inl ⟨rfl, rfl, rfl, ?_, rfl, rfl⟩))⟩
    simp only [GoMap.get, hv, Finmap.lookup_insert, Option.getD_some, ht]
  | save =>
    simp only [goStep, Option.some.injEq, Prod.mk.injEq] at hstep
    obtain ⟨rfl, rfl⟩ := hstep
    refine ⟨rfl, ⟨u, m, by simp [saveStats_stats, hu], by simp [saveStats_stats, hm]⟩, by simp,
      Or.inr (Or.inr (Or.inr ⟨rfl, rfl, by simp [saveStats_stats], rfl⟩))⟩
  | readBack =>
    simp only [goStep, Option.some.injEq, Prod.mk.injEq] at hstep
    obtain ⟨rfl, rfl⟩ := hstep
    exact ⟨rfl, ⟨u, m, hu, hm⟩, by simp, Or.inr (Or.inr (Or.inr ⟨rfl, rfl, rfl, rfl⟩))⟩
  | unlock q =>
    simp only [goStep, if_true, Option.some.injEq, Prod.mk.injEq] at hstep
    obtain ⟨rfl, rfl⟩ := hstep
    exact ⟨rfl, ⟨u, m, hu, hm⟩, by simp, Or.inr (Or.inl ⟨rfl, rfl, rfl, rfl, rfl⟩)⟩
  | respond q =>
    simp only [goStep, Option.some.injEq, Prod.mk.injEq] at hstep
    obtain ⟨rfl, rfl⟩ := hstep
    exact ⟨rfl, ⟨u, m, hu, hm⟩, by simp, Or.inr (Or.inr (Or.inr ⟨rfl, rfl, rfl, rfl⟩))⟩
  | done o => simp [goStep] at hstep
  | panicked => simp [goStep] at hstep

/-- A statement by any goroutine keeps the invariant of the pool. -/
theorem poolStep_inv (v : String) (c0 : Int) (p p1 : Pool) (i : Nat)
    (hinv : p.Inv v c0) (hstep : poolStep true p i = some p1) : p1.Inv v c0 := by
  unfold poolStep at hstep
  cases hg : p.gs[i]? with
  | none => simp [hg] at hstep
  | some g =>
    simp only [hg] at hstep
    cases hs : goStep true p.shared g with
    | none => simp [hs] at hstep
    | some r =>
      obtain ⟨sh1, g1⟩ := r
      simp only [hs, Option.some.injEq] at hstep
      subst hstep
      have hmem : g ∈ p.gs := List.mem_iff_getElem?.mpr ⟨i, hg⟩
      obtain ⟨hreq, hpres1, hfresh1, hcases⟩ :=
        goStep_spec p.shared sh1 g g1 v hinv.present (hinv.reqs g hmem).1 (hinv.reqs g hmem).2
          (fun x hx => hinv.fresh i g x hg hx) hs
      have hilt : i < p.gs.length := by
        by_contra hcon
        rw [List.getElem?_eq_none (by omega)] at hg
        exact absurd hg (by simp)
      have hget : ∀ j, (p.gs.set i g1)[j]? = if i = j then some g1 else p.gs[j]? := by
        intro j
        rw [List.getElem?_set]
        by_cases hij : i = j
        · rw [if_pos hij, if_pos hij, if_pos hilt]
        · rw [if_neg hij, if_neg hij]
      have hsum := sum_map_set (fun g => g.pc.stored) p.gs i g g1 hg
      obtain ⟨h, hlock, hcrit⟩ := hinv.holder
      have hcount := hinv.count
      have hfr := hinv.fresh
      have hreqs : ∀ g2 ∈ p.gs.set i g1, g2.req.Path ≠ "/favicon.ico" ∧ getIP g2.req = v := by
        intro g2 hg2
        rcases List.mem_or_eq_of_mem_set hg2 with h2 | h2
        · exact hinv.reqs g2 h2
        · rw [h2, hreq]; exact hinv.reqs g hmem
      rcases hcases with ⟨hc, hl, hl1, hc1, hcnt, hst⟩ | ⟨hc, hc1, hl1, hcnt, hst⟩ |
        ⟨hc, hc1, hl1, hcnt, hst, hst1⟩ | ⟨hc1, hl1, hcnt, hst⟩
      · -- the goroutine takes the mutex
        have hnone : h = none := by
          rw [hl] at hlock
          cases h with
          | none => rfl
          | some k => simp at hlock
        subst hnone
        refine ⟨hpres1, hreqs, ⟨some i, by simp [hl1], ?_⟩, ?_, ?_⟩
        · intro j g2 hj
          rw [hget j] at hj
          by_cases hij : i = j
          · simp only [hij, if_true, Option.some.injEq] at hj
            subst hj
            simp [hc1, hij]
          · simp only [hij, if_false] at hj
            have := (hcrit j g2 hj)
            simp only [Option.some.injEq, hij, iff_false]
            intro hcg
            exact absurd (this.mp hcg) (by simp)
        · show sh1.world.stats.UserVisits.get v 0 = _
          rw [hcnt, hcount]
          congr 1
          simp only at hsum
          dsimp only
          omega
        · intro j g2 x hj hx
          rw [hget j] at hj
          show x = sh1.world.stats.UserVisits.get v 0
          by_cases hij : i = j
          · simp only [hij, if_true, Option.some.injEq] at hj
            subst hj
            exact hfresh1 x hx
          · simp only [hij, if_false] at hj
            rw [hcnt]
            exact hfr j g2 x hj hx
      · -- the goroutine releases the mutex
        have hsome : h = some i := (hcrit i g hg).mp hc
        subst hsome
        refine ⟨hpres1, hreqs, ⟨none, by simp [hl1], ?_⟩, ?_, ?_⟩
        · intro j g2 hj
          rw [hget j] at hj
          by_cases hij : i = j
          · simp only [hij, if_true, Option.some.injEq] at hj
            subst hj
            simp [hc1]
          · simp only [hij, if_false] at hj
            have := (hcrit j g2 hj)
            simp only [Option.some.injEq, hij, iff_false] at this
            simp [this]
        · show sh1.world.stats.UserVisits.get v 0 = _
          rw [hcnt, hcount]
          congr 1
          simp only at hsum
          dsimp only
          omega
        · intro j g2 x hj hx
          rw [hget j] at hj
          show x = sh1.world.stats.UserVisits.get v 0
          by_cases hij : i = j
          · simp only [hij, if_true, Option.some.injEq] at hj
            subst hj
            exact hfresh1 x hx
          · simp only [hij, if_false] at hj
            rw [hcnt]
            exact hfr j g2 x hj hx
      · -- the goroutine writes its increment while holding the mutex
        have hsome : h = some i := (hcrit i g hg).mp hc
        subst hsome
        refine ⟨hpres1, hreqs, ⟨some i, by rw [hl1]; exact hlock, ?_⟩, ?_, ?_⟩
        · intro j g2 hj
          rw [hget j] at hj
          by_cases hij : i = j
          · simp only [hij, if_true, Option.some.injEq] at hj
            subst hj
            simp [hc1, hij]
          · simp only [hij, if_false] at hj
            exact hcrit j g2 hj
        · show sh1.world.stats.UserVisits.get v 0 = _
          have hs2 : ((p.gs.set i g1).map (fun g => g.pc.stored)).sum
              = (p.gs.map (fun g => g.pc.stored)).sum + 1 := by
            simp only at hsum
            omega
          rw [hcnt, hcount, hs2, bump_succ_right]
        · intro j g2 x hj hx
          rw [hget j] at hj
          by_cases hij : i = j
          · simp only [hij, if_true, Option.some.injEq] at hj
            subst hj
            exact hfresh1 x hx
          · simp only [hij, if_false] at hj
            have hcj : g2.pc.critical = true := by rw [hx]; rfl
            have := (hcrit j g2 hj).mp hcj
            simp only [Option.some.injEq] at this
            exact absurd this hij
      · -- neither the mutex nor the count changes
        refine ⟨hpres1, hreqs, ⟨h, by rw [hl1]; exact hlock, ?_⟩, ?_, ?_⟩
        · intro j g2 hj
          rw [hget j] at hj
          by_cases hij : i = j
          · simp only [hij, if_true, Option.some.injEq] at hj
            subst hj
            rw [hc1, ← hij]
            exact hcrit i g hg
          · simp only [hij, if_false] at hj
            exact hcrit j g2 hj
        · show sh1.world.stats.UserVisits.get v 0 = _
          rw [hcnt, hcount]
          congr 1
          simp only at hsum
          dsimp only
          omega
        · intro j g2 x hj hx
          rw [hget j] at hj
          show x = sh1.world.stats.UserVisits.get v 0
          by_cases hij : i = j
          · simp only [hij, if_true, Option.some.injEq] at hj
            subst hj
            exact hfresh1 x hx
          · simp only [hij, if_false] at hj
            rw [hcnt]
            exact hfr j g2 x hj hx

theorem poolStep_length (mutex : Bool) (p p1 : Pool) (i : Nat)
    (hstep : poolStep mutex p i = some p1) : p1.gs.length = p.gs.length := by
  unfold poolStep at hstep
  cases hg : p.gs[i]? with
  | none => simp [hg] at hstep
  | some g =>
    simp only [hg] at hstep
    cases hs : goStep mutex p.shared g with
    | none => simp [hs] at hstep
    | some r =>
      simp only [hs, Option.some.injEq] at hstep
      subst hstep
      simp

/-- Every schedule keeps the invariant and the number of goroutines. -/
theorem exec_inv (v : String) (c0 : Int) (sched : List Nat) :
    ∀ (p p1 : Pool), p.Inv v c0 → exec true p sched = some p1 →
      p1.Inv v c0 ∧ p1.gs.length = p.gs.length := by
  induction sched with
  | nil =>
    intro p p1 hinv h
    simp only [exec, Option.some.injEq] at h
    subst h
    exact ⟨hinv, rfl⟩
  | cons i sched ih =>
    intro p p1 hinv h
    simp only [exec] at h
    cases hs : poolStep true p i with
    | none => simp [hs] at h
    | some p2 =>
      simp only [hs] at h
      obtain ⟨h1, h2⟩ := ih p2 p1 (poolStep_inv v c0 p p2 i hinv hs) h
      exact ⟨h1, by rw [h2, poolStep_length true p p2 i hs]⟩

/-- The invariant holds when the goroutines are spawned. -/
theorem spawn_inv (w : World) (v : String) (rs : List (Request × SaveOutcome))
    (hpres : ∃ u m, w.stats.UniqueVisitors = some u ∧ w.stats.UserVisits = some m)
    (hreq : ∀ c ∈ rs, c.1.Path ≠ "/favicon.ico" ∧ getIP c.1 = v) :
    (spawn w rs).Inv v (w.stats.UserVisits.get v 0) := by
  have hstart : ∀ g ∈ (spawn w rs).gs, g.pc = PC.start := by
    intro g hg
    simp only [spawn, List.mem_map] at hg
    obtain ⟨c, _, rfl⟩ := hg
    rfl
  refine ⟨hpres, ?_, ⟨none, rfl, ?_⟩, ?_, ?_⟩
  · intro g hg
    simp only [spawn, List.mem_map] at hg
    obtain ⟨c, hc, rfl⟩ := hg
    exact hreq c hc
  · intro j g hj
    have := hstart g (List.mem_iff_getElem?.mpr ⟨j, hj⟩)
    simp [this, PC.critical]
  · rw [sum_map_eq_zero _ _ (fun g hg => by rw [hstart g hg]; rfl)]
    rfl
  · intro j g x hj hx
    have := hstart g (List.mem_iff_getElem?.mpr ⟨j, hj⟩)
    rw [this] at hx
    exact absurd hx (by simp)

/-- Safety: once every call has completed, whatever the schedule was, `UserVisits[v]` has
been incremented once per call. -/
theorem exec_count (w : World) (v : String) (rs : List (Request × SaveOutcome))
    (hpres : ∃ u m, w.stats.UniqueVisitors = some u ∧ w.stats.UserVisits = some m)
    (hreq : ∀ c ∈ rs, c.1.Path ≠ "/favicon.ico" ∧ getIP c.1 = v)
    (sched : List Nat) (p : Pool) (hexec : exec true (spawn w rs) sched = some p)
    (hdone : p.allDone = true) :
    p.shared.world.stats.UserVisits.get v 0 = bump (w.stats.UserVisits.get v 0) rs.length := by
  obtain ⟨hinv, hlen⟩ := exec_inv v _ sched _ p (spawn_inv w v rs hpres hreq) hexec
  have hall : ∀ g ∈ p.gs, g.pc.stored = 1 := by
    intro g hg
    simp only [Pool.allDone, List.all_eq_true] at hdone
    have := hdone g hg
    cases hpc : g.pc <;> simp [hpc, PC.finished] at this
    rfl
  rw [hinv.count, sum_map_eq_length _ _ hall, hlen]
  simp [spawn]

theorem exec_append (mutex : Bool) (a b : List Nat) :
    ∀ p : Pool, exec mutex p (a ++ b) = (exec mutex p a).bind (fun q => exec mutex q b) := by
  induction a with
  | nil => intro p; rfl
  | cons i a ih =>
    intro p
    simp only [List.cons_append, exec]
    cases poolStep mutex p i with
    | none => rfl
    | some p1 => exact ih p1

/-- Letting one goroutine run `k` statements in a row. -/
theorem exec_replicate (mutex : Bool) (i : Nat) (k : Nat) :
    ∀ (p : Pool) (g g1 : Goroutine) (sh1 : Shared), p.gs[i]? = some g →
      goSteps mutex k p.shared g = some (sh1, g1) →
      exec mutex p (List.replicate k i) = some ⟨sh1, p.gs.set i g1⟩ := by
  induction k with
  | zero =>
    intro p g g1 sh1 hg hs
    simp only [goSteps, Option.some.injEq, Prod.mk.injEq] at hs
    obtain ⟨rfl, rfl⟩ := hs
    simp only [List.replicate, exec, set_of_getElem? p.gs i g hg]
  | succ k ih =>
    intro p g g1 sh1 hg hs
    simp only [goSteps] at hs
    cases h1 : goStep mutex p.shared g with
    | none => simp [h1] at hs
    | some r =>
      obtain ⟨sh2, g2⟩ := r
      simp only [h1] at hs
      have hilt : i < p.gs.length := by
        by_contra hcon
        rw [List.getElem?_eq_none (by omega)] at hg
        exact absurd hg (by simp)
      have hstep : poolStep mutex p i = some ⟨sh2, p.gs.set i g2⟩ := by
        simp [poolStep, hg, h1]
      have hg2 : (Pool.mk sh2 (p.gs.set i g2)).gs[i]? = some g2 := by
        show (p.gs.set i g2)[i]? = some g2
        rw [List.getElem?_set, if_pos rfl, if_pos hilt]
      have := ih ⟨sh2, p.gs.set i g2⟩ g2 g1 sh1 hg2 hs
      simp only [List.replicate, exec, hstep, this, List.set_set]

/-- Refinement: a goroutine that finds the mutex free and runs alone through its eleven
statements does what the atomic `homeHandler` does, and leaves the mutex free. -/
theorem goSteps_alone (w : World) (req : Request) (out : SaveOutcome) (u : StrMap Bool)
    (m : StrMap Int) (hu : w.stats.UniqueVisitors = some u) (hm : w.stats.UserVisits = some m)
    (hp : req.Path ≠ "/favicon.ico") :
    goSteps true 11 ⟨w, false⟩ ⟨req, out, PC.start⟩
      = (homeHandler w req out).map
          (fun r => ((⟨r.1, false⟩ : Shared), (⟨req, out, PC.done r.2⟩ : Goroutine))) := by
  rw [homeHandler_eq w req out u m hu hm hp]
  simp only [goSteps, goStep, hp, if_false, if_true, Bool.false_eq_true, hu, hm, GoMap.set]
  simp [GoMap.get, GoMap.len, saveStats_stats]

/-- A goroutine that finds the mutex free and runs alone completes its call in eleven
statements and leaves the mutex free. -/
theorem goSteps_solo (sh : Shared) (g : Goroutine)
    (hpres : ∃ u m, sh.world.stats.UniqueVisitors = some u ∧ sh.world.stats.UserVisits = some m)
    (hl : sh.locked = false) (hpc : g.pc = PC.start) (hp : g.req.Path ≠ "/favicon.ico") :
    ∃ sh1 g1, goSteps true 11 sh g = some (sh1, g1) ∧ sh1.locked = false ∧
      g1.pc.finished = true ∧
      ∃ u m, sh1.world.stats.UniqueVisitors = some u ∧ sh1.world.stats.UserVisits = some m := by
  obtain ⟨u, m, hu, hm⟩ := hpres
  obtain ⟨req, out, pc⟩ := g
  obtain ⟨w, locked⟩ := sh
  simp only at hl hpc hp hu hm
  subst hl hpc
  rw [goSteps_alone w req out u m hu hm hp, homeHandler_eq w req out u m hu hm hp]
  refine ⟨_, _, rfl, rfl, rfl, u.insert (getIP req) true,
    m.insert (getIP req) (wrapInt ((m.lookup (getIP req)).getD 0 + 1)), ?_, ?_⟩
  · simp [saveStats_stats]
  · simp [saveStats_stats]

/-- Liveness: the schedule that runs the calls one after the other completes them all. -/
theorem seqSchedule_completes (w : World) (rs : List (Request × SaveOutcome))
    (hpres : ∃ u m, w.stats.UniqueVisitors = some u ∧ w.stats.UserVisits = some m)
    (hreq : ∀ c ∈ rs, c.1.Path ≠ "/favicon.ico") :
    ∃ p, exec true (spawn w rs) (seqSchedule rs.length) = some p ∧ p.allDone = true := by
  have key : ∀ n, n ≤ rs.length →
      ∃ p, exec true (spawn w rs) (seqSchedule n) = some p ∧ p.shared.locked = false ∧
        (∃ u m, p.shared.world.stats.UniqueVisitors = some u ∧
          p.shared.world.stats.UserVisits = some m) ∧
        p.gs.length = rs.length ∧
        (∀ j g, j < n → p.gs[j]? = some g → g.pc.finished = true) ∧
        (∀ j, n ≤ j → p.gs[j]? = (spawn w rs).gs[j]?) := by
    intro n
    induction n with
    | zero =>
      intro _
      exact ⟨spawn w rs, rfl, rfl, hpres, by simp [spawn], fun j g hj => absurd hj (by omega),
        fun j _ => rfl⟩
    | succ n ih =>
      intro hn
      obtain ⟨p, hex, hl, hpr, hlen, hfin, hrest⟩ := ih (by omega)
      have hgn : p.gs[n]? = (spawn w rs).gs[n]? := hrest n (le_refl n)
      have hrn : ∃ c, rs[n]? = some c := by
        rw [List.getElem?_eq_getElem (by omega)]
        exact ⟨_, rfl⟩
      obtain ⟨c, hc⟩ := hrn
      have hgn2 : p.gs[n]? = some ⟨c.1, c.2, PC.start⟩ := by
        rw [hgn]
        simp [spawn, hc]
      have hcmem : c ∈ rs := List.mem_iff_getElem?.mpr ⟨n, hc⟩
      obtain ⟨sh1, g1, hs, hl1, hf1, hpr1⟩ :=
        goSteps_solo p.shared ⟨c.1, c.2, PC.start⟩ hpr hl rfl (hreq c hcmem)
      have hrun := exec_replicate true n 11 p _ g1 sh1 hgn2 hs
      refine ⟨⟨sh1, p.gs.set n g1⟩, ?_, hl1, hpr1, by simp [hlen], ?_, ?_⟩
      · rw [seqSchedule, exec_append, hex]
        exact hrun
      · intro j g hj hg
        have hg2 : (p.gs.set n g1)[j]? = some g := hg
        rw [List.getElem?_set] at hg2
        by_cases hnj : n = j
        · rw [if_pos hnj] at hg2
          split at hg2
          · simp only [Option.some.injEq] at hg2
            rw [← hg2]
            exact hf1
          · exact absurd hg2 (by simp)
        · rw [if_neg hnj] at hg2
          exact hfin j g (by omega) hg2
      · intro j hj
        show (p.gs.set n g1)[j]? = _
        rw [List.getElem?_set_ne (by omega)]
        exact hrest j (by omega)
  obtain ⟨p, hex, _, _, hlen, hfin, _⟩ := key rs.length (le_refl _)
  refine ⟨p, hex, ?_⟩
  simp only [Pool.allDone, List.all_eq_true]
  intro g hg
  obtain ⟨j, hj⟩ := List.mem_iff_getElem?.mp hg
  have hjlt : j < p.gs.length := by
    by_contra hcon
    rw [List.getElem?_eq_none (by omega)] at hj
    exact absurd hj (by simp)
  exact hfin j g (by omega) hj

/-- Without the mutex the increment can be lost: two calls from 10.0.0.1 on the fresh
store, the second running between the read and the write of the first, both complete
and leave `UserVisits["10.0.0.1"]` at 1 (with the total at 2). -/
theorem lost_update_without_mutex :
    (exec false (spawn (boot none) [(reqA, SaveOutcome.ok), (reqA, SaveOutcome.ok)])
        racySchedule).map
      (fun p => (p.allDone, p.shared.world.stats.UserVisits.get "10.0.0.1" 0,
        p.shared.world.stats.TotalVisits)) = some (true, 1, 2) := by
  decide

/-- With the mutex that schedule cannot happen (the second call waits at `mu.Lock()`), and
a schedule in which the second call arrives in the middle of the first ends with the
count at 2 and the mutex free. -/
theorem interleaved_with_mutex :
    (exec true (spawn (boot none) [(reqA, SaveOutcome.ok), (reqA, SaveOutcome.ok)])
        racySchedule).isNone = true ∧
      (exec true (spawn (boot none) [(reqA, SaveOutcome.ok), (reqA, SaveOutcome.ok)])
          interleavedSchedule).map
        (fun p => (p.allDone, p.shared.world.stats.UserVisits.get "10.0.0.1" 0,
          p.shared.locked)) = some (true, 2, false) := by
  decide

theorem overflowCalls_identity :
    ∀ c ∈ overflowCalls, c.1.Path ≠ "/favicon.ico" ∧ getIP c.1 = "10.0.0.1" := by
  intro c hc
  rw [List.eq_of_mem_replicate hc]
  decide

/-! ## UTF-8 -/

theorem fin_ofNat_val (b : Byte) (n : Nat) (h : b.val = n) : (Fin.ofNat n : Byte) = b := by
  apply Fin.ext
  simp only [Fin.ofNat, ← h]
  omega

theorem decodeRune_spec (s : Bytes) (c n : Nat) (h : decodeRune s = some (c, n)) :
    c.isValidChar ∧ encodeRune c = s.take n ∧ 0 < n ∧ n ≤ s.length := by
  unfold decodeRune at h
  split at h
  · simp at h
  · rename_i b0 t
    have h0 := b0.isLt
    split_ifs at h with h1 h2 h3 h4 h5
    · simp only [Option.some.injEq, Prod.mk.injEq] at h
      obtain ⟨rfl, rfl⟩ := h
      refine ⟨Or.inl (by omega), ?_, by omega, by simp⟩
      simp [encodeRune, h1, fin_ofNat_val b0 _ rfl]
    · split at h
      · rename_i b1 t1
        have hb1 := b1.isLt
        split_ifs at h with hc
        simp only [Option.some.injEq, Prod.mk.injEq] at h
        obtain ⟨rfl, rfl⟩ := h
        simp only [isCont, Bool.and_eq_true, decide_eq_true_eq] at hc
        refine ⟨Or.inl (by omega), ?_, by omega, by simp⟩
        have e1 : ¬ (b0.val % 32 * 64 + b1.val % 64 < 128) := by omega
        have e2 : b0.val % 32 * 64 + b1.val % 64 < 2048 := by omega
        simp only [encodeRune, e1, e2, if_false, if_true, List.take_succ_cons, List.take_zero]
        rw [fin_ofNat_val b0 _ (by omega), fin_ofNat_val b1 _ (by omega)]
      · simp at h
    · split at h
      · rename_i b1 b2 t2
        have hb1 := b1.isLt
        have hb2 := b2.isLt
        split_ifs at h with hc
        simp only [Option.some.injEq, Prod.mk.injEq] at h
        obtain ⟨rfl, rfl⟩ := h
        simp only [isCont, acceptLo, acceptHi, Bool.and_eq_true, decide_eq_true_eq] at hc
        obtain ⟨hlo, hhi, hc2⟩ := hc
        have hv : b0.val % 16 * 4096 + b1.val % 64 * 64 + b2.val % 64 < 55296 ∨
            57343 < b0.val % 16 * 4096 + b1.val % 64 * 64 + b2.val % 64 ∧
              b0.val % 16 * 4096 + b1.val % 64 * 64 + b2.val % 64 < 1114112 := by
          split_ifs at hlo hhi <;> omega
        have e1 : ¬ (b0.val % 16 * 4096 + b1.val % 64 * 64 + b2.val % 64 < 128) := by
          split_ifs at hlo hhi <;> omega
        have e2 : ¬ (b0.val % 16 * 4096 + b1.val % 64 * 64 + b2.val % 64 < 2048) := by
          split_ifs at hlo hhi <;> omega
        have e3 : b0.val % 16 * 4096 + b1.val % 64 * 64 + b2.val % 64 < 65536 := by omega
        refine ⟨hv, ?_, by omega, by simp⟩
        simp only [encodeRune, e1, e2, e3, if_false, if_true, List.take_succ_cons, List.take_zero]
        rw [fin_ofNat_val b0 _ (by split_ifs at hlo hhi <;> omega),
          fin_ofNat_val b1 _ (by split_ifs at hlo hhi <;> omega),
          fin_ofNat_val b2 _ (by omega)]
      · simp at h
    · split at h
      · rename_i b1 b2 b3 t3
        have hb1 := b1.isLt
        have hb2 := b2.isLt
        have hb3 := b3.isLt
        split_ifs at h with hc
        simp only [Option.some.injEq, Prod.mk.injEq] at h
        obtain ⟨rfl, rfl⟩ := h
        simp only [isCont, acceptLo, acceptHi, Bool.and_eq_true, decide_eq_true_eq] at hc
        obtain ⟨hlo, hhi, hc2, hc3⟩ := hc
        have hv : 57343 < b0.val % 8 * 262144 + b1.val % 64 * 4096 + b2.val % 64 * 64
              + b3.val % 64 ∧
            b0.val % 8 * 262144 + b1.val % 64 * 4096 + b2.val % 64 * 64 + b3.val % 64
              < 1114112 := by
          split_ifs at hlo hhi <;> omega
        have e3 : ¬ (b0.val % 8 * 262144 + b1.val % 64 * 4096 + b2.val % 64 * 64 + b3.val % 64
            < 65536) := by
          split_ifs at hlo hhi <;> omega
        have e1 : ¬ (b0.val % 8 * 262144 + b1.val % 64 * 4096 + b2.val % 64 * 64 + b3.val % 64
            < 128) := by omega
        have e2 : ¬ (b0.val % 8 * 262144 + b1.val % 64 * 4096 + b2.val % 64 * 64 + b3.val % 64
            < 2048) := by omega
        refine ⟨Or.inr hv, ?_, by omega, by simp⟩
        simp only [encodeRune, e1, e2, e3, if_false, List.take_succ_cons, List.take_zero]
        rw [fin_ofNat_val b0 _ (by split_ifs at hlo hhi <;> omega),
          fin_ofNat_val b1 _ (by split_ifs at hlo hhi <;> omega),
          fin_ofNat_val b2 _ (by omega), fin_ofNat_val b3 _ (by omega)]
      · simp at h

theorem toNat_ofNat_valid (c : Nat) (h : c.isValidChar) : (Char.ofNat c).toNat = c := by
  simp [Char.ofNat, h, Char.ofNatAux, Char.toNat, UInt32.toNat]

theorem valid_round_trip : ∀ (fuel : Nat) (s : Bytes), s.length ≤ fuel →
    validAux fuel s = true → (coerceAux fuel s).flatMap (fun c => encodeRune c.toNat) = s := by
  intro fuel
  induction fuel with
  | zero =>
    intro s hl _
    have : s = [] := List.eq_nil_of_length_eq_zero (by omega)
    subst this
    rfl
  | succ fuel ih =>
    intro s hl hv
    cases s with
    | nil => rfl
    | cons b t =>
      simp only [validAux, coerceAux] at hv ⊢
      cases hd : decodeRune (b :: t) with
      | none => simp [hd] at hv
      | some r =>
        obtain ⟨c, n⟩ := r
        simp only [hd] at hv ⊢
        obtain ⟨hvc, henc, hn0, hnl⟩ := decodeRune_spec (b :: t) c n hd
        have hlen : ((b :: t).drop n).length ≤ fuel := by
          simp only [List.length_drop, List.length_cons] at hl ⊢
          omega
        simp only [List.flatMap_cons, toNat_ofNat_valid c hvc, henc, ih _ hlen hv]
        exact List.take_append_drop n (b :: t)

theorem toBytes_coerceUTF8 (s : Bytes) (h : validUTF8 s = true) : toBytes (coerceUTF8 s) = s :=
  valid_round_trip s.length s (le_refl _) h

theorem coerceUTF8_injective (a b : Bytes) (ha : validUTF8 a = true) (hb : validUTF8 b = true)
    (h : coerceUTF8 a = coerceUTF8 b) : a = b := by
  rw [← toBytes_coerceUTF8 a ha, ← toBytes_coerceUTF8 b hb, h]

theorem fin_ofNat_lt (x : Nat) (h : x < 256) : ((Fin.ofNat x : Byte)).val = x := by
  simp only [Fin.ofNat]
  omega

theorem decodeRune_encodeRune (c : Nat) (hc : c.isValidChar) (rest : Bytes) :
    decodeRune (encodeRune c ++ rest) = some (c, (encodeRune c).length) := by
  have hc2 : c < 0xd800 ∨ (0xdfff < c ∧ c < 0x110000) := hc
  unfold encodeRune
  split_ifs with h1 h2 h3
  · simp only [List.singleton_append, decodeRune, fin_ofNat_lt c (by omega), h1, if_true,
      List.length_singleton]
  · have v0 := fin_ofNat_lt (0xC0 + c / 64) (by omega)
    have v1 := fin_ofNat_lt (0x80 + c % 64) (by omega)
    simp only [List.cons_append, List.nil_append, decodeRune, v0, v1, isCont]
    have a1 : ¬ (0xC0 + c / 64 < 0x80) := by omega
    have a2 : ¬ (0xC0 + c / 64 < 0xC2) := by omega
    have a3 : 0xC0 + c / 64 < 0xE0 := by omega
    have a4 : 0x80 ≤ 0x80 + c % 64 := by omega
    have a5 : 0x80 + c % 64 ≤ 0xBF := by omega
    simp only [a1, a2, a3, a4, a5, if_false, if_true, decide_True, Bool.and_self,
      List.length_cons, List.length_nil, Option.some.injEq, Prod.mk.injEq, and_true]
    omega
  · have v0 := fin_ofNat_lt (0xE0 + c / 4096) (by omega)
    have v1 := fin_ofNat_lt (0x80 + c / 64 % 64) (by omega)
    have v2 := fin_ofNat_lt (0x80 + c % 64) (by omega)
    simp only [List.cons_append, List.nil_append, decodeRune, v0, v1, v2, isCont, acceptLo,
      acceptHi]
    have a1 : ¬ (0xE0 + c / 4096 < 0x80) := by omega
    have a2 : ¬ (0xE0 + c / 4096 < 0xC2) := by omega
    have a3 : ¬ (0xE0 + c / 4096 < 0xE0) := by omega
    have a4 : 0xE0 + c / 4096 < 0xF0 := by omega
    have a5 : ¬ (0xE0 + c / 4096 = 0xF0) := by omega
    have a6 : ¬ (0xE0 + c / 4096 = 0xF4) := by omega
    have a7 : 0x80 ≤ 0x80 + c % 64 := by omega
    have a8 : 0x80 + c % 64 ≤ 0xBF := by omega
    have a9 : (if 0xE0 + c / 4096 = 0xE0 then 0xA0 else 0x80) ≤ 0x80 + c / 64 % 64 := by
      split_ifs <;> omega
    have a10 : 0x80 + c / 64 % 64 ≤ (if 0xE0 + c / 4096 = 0xED then 0x9F else 0xBF) := by
      split_ifs <;> omega
    simp only [a1, a2, a3, a4, a5, a6, a7, a8, a9, a10, if_false, if_true, decide_True,
      Bool.and_self, and_self, List.length_cons, List.length_nil, Option.some.injEq,
      Prod.mk.injEq, and_true]
    omega
  · have v0 := fin_ofNat_lt (0xF0 + c / 262144) (by omega)
    have v1 := fin_ofNat_lt (0x80 + c / 4096 % 64) (by omega)
    have v2 := fin_ofNat_lt (0x80 + c / 64 % 64) (by omega)
    have v3 := fin_ofNat_lt (0x80 + c % 64) (by omega)
    simp only [List.cons_append, List.nil_append, decodeRune, v0, v1, v2, v3, isCont, acceptLo,
      acceptHi]
    have a1 : ¬ (0xF0 + c / 262144 < 0x80) := by omega
    have a2 : ¬ (0xF0 + c / 262144 < 0xC2) := by omega
    have a3 : ¬ (0xF0 + c / 262144 < 0xE0) := by omega
    have a4 : ¬ (0xF0 + c / 262144 < 0xF0) := by omega
    have a4b : 0xF0 + c / 262144 < 0xF5 := by omega
    have a5 : ¬ (0xF0 + c / 262144 = 0xE0) := by omega
    have a6 : ¬ (0xF0 + c / 262144 = 0xED) := by omega
    have a7 : 0x80 ≤ 0x80 + c % 64 := by omega
    have a8 : 0x80 + c % 64 ≤ 0xBF := by omega
    have a7b : 0x80 ≤ 0x80 + c / 64 % 64 := by omega
    have a8b : 0x80 + c / 64 % 64 ≤ 0xBF := by omega
    have a9 : (if 0xF0 + c / 262144 = 0xF0 then 0x90 else 0x80) ≤ 0x80 + c / 4096 % 64 := by
      split_ifs <;> omega
    have a10 : 0x80 + c / 4096 % 64 ≤ (if 0xF0 + c / 262144 = 0xF4 then 0x8F else 0xBF) := by
      split_ifs <;> omega
    simp only [a1, a2, a3, a4, a4b, a5, a6, a7, a8, a7b, a8b, a9, a10, if_false, if_true,
      decide_True, Bool.and_self, and_self, List.length_cons, List.length_nil,
      Option.some.injEq, Prod.mk.injEq, and_true]
    omega

theorem encodeRune_ne_nil (c : Nat) : encodeRune c ≠ [] := by
  unfold encodeRune
  split_ifs <;> simp

theorem coerceAux_step (fuel : Nat) (s : Bytes) (c n : Nat) (h : decodeRune s = some (c, n)) :
    coerceAux (fuel + 1) s = Char.ofNat c :: coerceAux fuel (s.drop n) := by
  cases s with
  | nil => simp [decodeRune] at h
  | cons b t => simp only [coerceAux, h]

theorem validAux_step (fuel : Nat) (s : Bytes) (c n : Nat) (h : decodeRune s = some (c, n)) :
    validAux (fuel + 1) s = validAux fuel (s.drop n) := by
  cases s with
  | nil => simp [decodeRune] at h
  | cons b t => simp only [validAux, h]

/-- Decoding the bytes of a string of code points gives the string back, and they are
valid UTF-8. -/
theorem coerceAux_toBytes : ∀ (cs : List Char) (fuel : Nat), cs.length ≤ fuel →
    coerceAux fuel (cs.flatMap (fun c => encodeRune c.toNat)) = cs ∧
      validAux fuel (cs.flatMap (fun c => encodeRune c.toNat)) = true := by
  intro cs
  induction cs with
  | nil =>
    intro fuel _
    cases fuel <;> exact ⟨rfl, rfl⟩
  | cons c cs ih =>
    intro fuel hl
    cases fuel with
    | zero => simp at hl
    | succ fuel =>
      have hd := decodeRune_encodeRune c.toNat c.valid
        (cs.flatMap (fun c => encodeRune c.toNat))
      obtain ⟨h1, h2⟩ := ih fuel (by simpa using hl)
      rw [List.flatMap_cons, coerceAux_step _ _ _ _ hd, validAux_step _ _ _ _ hd,
        List.drop_left, h1, h2, Char.ofNat_toNat]
      exact ⟨rfl, rfl⟩

theorem length_le_toBytes (cs : List Char) :
    cs.length ≤ (cs.flatMap (fun c => encodeRune c.toNat)).length := by
  induction cs with
  | nil => simp
  | cons c cs ih =>
    have : 0 < (encodeRune c.toNat).length := List.length_pos.mpr (encodeRune_ne_nil _)
    simp only [List.flatMap_cons, List.length_append, List.length_cons]
    omega

theorem coerceUTF8_toBytes (s : String) : coerceUTF8 (toBytes s) = s ∧ validUTF8 (toBytes s) = true := by
  obtain ⟨h1, h2⟩ := coerceAux_toBytes s.data _ (length_le_toBytes s.data)
  exact ⟨by simp only [coerceUTF8, toBytes]; rw [h1], h2⟩

/-! ## Saving a record with byte-string keys, then loading -/

theorem mem_rawSortedKeys {α : Type} (f : RawMap α) (k : Bytes) :
    k ∈ rawSortedKeys f ↔ k ∈ f := by
  rw [← Finmap.mem_keys, ← Finset.mem_val]
  unfold rawSortedKeys
  generalize f.keys.val = ms
  induction ms using Quot.inductionOn with
  | h l => exact (List.perm_insertionSort bytesLe l).mem_iff

/-- Decoding the members written for the keys `ks` of `f`, each key through a writer `wr`
that does not identify two keys of `f`: every written key holds the value of `f`, and
nothing else changes in the map. -/
theorem decodeEntries_write {α : Type} (enc : α → Json) (dec : Json → Option α)
    (f : RawMap α) (wr : Bytes → String)
    (hinj : ∀ a, a ∈ f → ∀ b, b ∈ f → wr a = wr b → a = b)
    (hd : ∀ k v, f.lookup k = some v → dec (enc v) = some v) :
    ∀ (ks : List Bytes) (m0 : StrMap α),
      ∃ m1, decodeEntries dec m0
          (ks.filterMap (fun k => (f.lookup k).map (fun v => (wr k, enc v)))) = some m1 ∧
        (∀ k, k ∈ ks → k ∈ f → m1.lookup (wr k) = f.lookup k) ∧
        (∀ s, (∀ k, k ∈ ks → k ∈ f → wr k ≠ s) → m1.lookup s = m0.lookup s) := by
  intro ks
  induction ks with
  | nil => intro m0; exact ⟨m0, rfl, by simp, fun _ _ => rfl⟩
  | cons k0 ks ih =>
    intro m0
    cases hk0 : f.lookup k0 with
    | none =>
      have hnot : k0 ∉ f := Finmap.lookup_eq_none.mp hk0
      obtain ⟨m1, h1, h2, h3⟩ := ih m0
      refine ⟨m1, by simp [List.filterMap_cons, hk0, h1], ?_, ?_⟩
      · intro k hk hkf
        rcases List.mem_cons.mp hk with rfl | hk
        · exact absurd hkf hnot
        · exact h2 k hk hkf
      · intro s hs
        exact h3 s (fun k hk hkf => hs k (List.mem_cons_of_mem _ hk) hkf)
    | some v =>
      have hin : k0 ∈ f := Finmap.mem_of_lookup_eq_some hk0
      obtain ⟨m1, h1, h2, h3⟩ := ih (m0.insert (wr k0) v)
      refine ⟨m1, by simp [List.filterMap_cons, hk0, decodeEntries, hd k0 v hk0, h1], ?_, ?_⟩
      · intro k hk hkf
        by_cases hks : k ∈ ks
        · exact h2 k hks hkf
        · rcases List.mem_cons.mp hk with rfl | hk
          · rw [h3 (wr k) (fun k1 hk1 hk1f hw => hks (hinj k1 hk1f k hkf hw ▸ hk1)),
              Finmap.lookup_insert, hk0]
          · exact absurd hk hks
      · intro s hs
        rw [h3 s (fun k hk hkf => hs k (List.mem_cons_of_mem _ hk) hkf)]
        exact Finmap.lookup_insert_of_ne _ (fun h => hs k0 (List.mem_cons_self _ _) hin h.symm)

/-- Decoding what is written for a map whose keys are all valid UTF-8: the decoded map
holds, for every Go string, the entry of the original. -/
theorem decodeMap_encodeRawMap {α : Type} (enc : α → Json) (dec : Json → Option α)
    (m : Option (RawMap α)) (hv : ∀ k ∈ (m.getD ∅).keys, validUTF8 k = true)
    (hd : ∀ k v, (m.getD ∅).lookup k = some v → dec (enc v) = some v) :
    ∃ m1 : GoMap α, decodeMap dec none (encodeRawMap enc m) = some m1 ∧
      ∀ b, lookupBytes m1 b = (m.getD ∅).lookup b := by
  cases m with
  | none =>
    refine ⟨none, rfl, ?_⟩
    intro b
    simp [lookupBytes, GoMap.contents]
  | some f =>
    simp only [Option.getD_some] at hv hd
    have hvalid : ∀ k, k ∈ f → validUTF8 k = true := fun k hk => hv k (Finmap.mem_keys.mpr hk)
    have hinj : ∀ a, a ∈ f → ∀ b, b ∈ f → coerceUTF8 a = coerceUTF8 b → a = b :=
      fun a ha b hb h => coerceUTF8_injective a b (hvalid a ha) (hvalid b hb) h
    obtain ⟨m1, h1, h2, h3⟩ := decodeEntries_write enc dec f coerceUTF8 hinj hd (rawSortedKeys f) ∅
    refine ⟨some m1, ?_, ?_⟩
    · simp only [encodeRawMap, decodeMap, GoMap.contents, Option.getD_none, h1, Option.map_some']
    · intro b
      simp only [lookupBytes, GoMap.contents, Option.getD_some]
      by_cases hb : validUTF8 b = true
      · rw [if_pos hb]
        by_cases hbf : b ∈ f
        · exact h2 b ((mem_rawSortedKeys f b).mpr hbf) hbf
        · rw [h3 (coerceUTF8 b) (fun k _ hkf hw =>
            hbf (coerceUTF8_injective k b (hvalid k hkf) hb hw ▸ hkf)),
            Finmap.lookup_empty, Finmap.lookup_eq_none.mpr hbf]
      · rw [if_neg hb]
        have hbf : b ∉ f := fun h => hb (hvalid b h)
        rw [Finmap.lookup_eq_none.mpr hbf]

/-- The entries of the byte view of a map: the entry under the Go string `b` is the entry
under the decoding of `b` when `b` is valid UTF-8, and there is none otherwise. -/
theorem rawMap_lookup {α : Type} (m : StrMap α) (b : Bytes) :
    (rawMap m).lookup b = lookupBytes (some m) b := by
  have key : ∀ ks : List String,
      ((∃ k, k ∈ ks ∧ k ∈ m ∧ toBytes k = b) →
        List.dlookup b (ks.filterMap (fun k => (m.lookup k).map
          (fun v => (⟨toBytes k, v⟩ : Sigma (fun _ : Bytes => α))))) = m.lookup (coerceUTF8 b)) ∧
      ((¬ ∃ k, k ∈ ks ∧ k ∈ m ∧ toBytes k = b) →
        List.dlookup b (ks.filterMap (fun k => (m.lookup k).map
          (fun v => (⟨toBytes k, v⟩ : Sigma (fun _ : Bytes => α))))) = none) := by
    intro ks
    induction ks with
    | nil => exact ⟨fun ⟨k, hk, _⟩ => absurd hk (List.not_mem_nil k), fun _ => rfl⟩
    | cons k0 ks ih =>
      cases hk0 : m.lookup k0 with
      | none =>
        have hnot : k0 ∉ m := Finmap.lookup_eq_none.mp hk0
        have hiff : (∃ k, k ∈ k0 :: ks ∧ k ∈ m ∧ toBytes k = b)
            ↔ ∃ k, k ∈ ks ∧ k ∈ m ∧ toBytes k = b := by
          constructor
          · rintro ⟨k, hk, hkm, hkb⟩
            rcases List.mem_cons.mp hk with rfl | hk
            · exact absurd hkm hnot
            · exact ⟨k, hk, hkm, hkb⟩
          · rintro ⟨k, hk, hkm, hkb⟩
            exact ⟨k, List.mem_cons_of_mem _ hk, hkm, hkb⟩
        simp only [List.filterMap_cons, hk0, Option.map_none']
        rw [hiff]
        exact ih
      | some v =>
        have hin : k0 ∈ m := Finmap.mem_of_lookup_eq_some hk0
        simp only [List.filterMap_cons, hk0, Option.map_some']
        by_cases hb : toBytes k0 = b
        · subst hb
          rw [List.dlookup_cons_eq, (coerceUTF8_toBytes k0).1, hk0]
          exact ⟨fun _ => rfl, fun h => absurd ⟨k0, List.mem_cons_self _ _, hin, rfl⟩ h⟩
        · rw [List.dlookup_cons_ne _ _ (fun h => hb h.symm)]
          have hiff : (∃ k, k ∈ k0 :: ks ∧ k ∈ m ∧ toBytes k = b)
              ↔ ∃ k, k ∈ ks ∧ k ∈ m ∧ toBytes k = b := by
            constructor
            · rintro ⟨k, hk, hkm, hkb⟩
              rcases List.mem_cons.mp hk with rfl | hk
              · exact absurd hkb hb
              · exact ⟨k, hk, hkm, hkb⟩
            · rintro ⟨k, hk, hkm, hkb⟩
              exact ⟨k, List.mem_cons_of_mem _ hk, hkm, hkb⟩
          rw [hiff]
          exact ih
  obtain ⟨kA, kB⟩ := key (sortedKeys m)
  simp only [rawMap, Finmap.dlookup_list_toFinmap, lookupBytes, GoMap.contents, Option.getD_some]
  by_cases hb : validUTF8 b = true
  · rw [if_pos hb]
    by_cases hm : coerceUTF8 b ∈ m
    · exact kA ⟨coerceUTF8 b, (mem_sortedKeys m _).mpr hm, hm, toBytes_coerceUTF8 b hb⟩
    · rw [Finmap.lookup_eq_none.mpr hm]
      apply kB
      rintro ⟨k, _, hkm, hkb⟩
      apply hm
      rw [← hkb, (coerceUTF8_toBytes k).1]
      exact hkm
  · rw [if_neg hb]
    apply kB
    rintro ⟨k, _, _, hkb⟩
    apply hb
    rw [← hkb]
    exact (coerceUTF8_toBytes k).2

/-- On the record of the scenario the encoder on byte-string keys writes what the encoder
on decoded keys writes. -/
theorem encodeRawStats_sample : encodeRawStats sampleRaw = encodeStats sampleStats := rfl

theorem ensureMaps_eq (s : Stats) :
    ensureMaps s = ⟨s.TotalVisits, some s.UniqueVisitors.contents, some s.UserVisits.contents⟩ := by
  obtain ⟨t, u, m⟩ := s
  cases u <;> cases m <;> rfl

/-- Decoding, into the zero record, what the encoder writes for a record of Go ints whose
keys are valid UTF-8. -/
theorem decodeStats_encodeRawStats (r : RawStats) (hr : r.InRange) (hv : r.ValidKeys) :
    ∃ (u1 : GoMap Bool) (m1 : GoMap Int),
      decodeStats zeroStats (encodeRawStats r) = some ⟨r.TotalVisits, u1, m1⟩ ∧
      (∀ b, lookupBytes u1 b = (r.UniqueVisitors.getD ∅).lookup b) ∧
      (∀ b, lookupBytes m1 b = (r.UserVisits.getD ∅).lookup b) := by
  obtain ⟨hT, hV⟩ := hr
  obtain ⟨u1, hu1, hu2⟩ :=
    decodeMap_encodeRawMap Json.bool (decodeBool false) r.UniqueVisitors hv.1 (fun _ _ _ => rfl)
  obtain ⟨m1, hm1, hm2⟩ :=
    decodeMap_encodeRawMap Json.int (decodeInt 0) r.UserVisits hv.2 (by
      intro k v hkv
      have hk : k ∈ (r.UserVisits.getD ∅).keys :=
        Finmap.mem_keys.mpr (Finmap.mem_of_lookup_eq_some hkv)
      have h := hV k hk
      rw [hkv] at h
      simp only [Option.getD_some] at h
      simp [decodeInt, h])
  refine ⟨u1, m1, ?_, hu2, hm2⟩
  simp [decodeStats, encodeRawStats, decodeFields, decodeField, zeroStats, decodeInt, hT,
    foldName_unique_ne_total, foldName_user_ne_total, foldName_user_ne_unique, hu1, hm1]

/-- Loading what was saved for a record of Go ints whose keys are valid UTF-8 gives the
record back, nil containers as empty ones. -/
theorem startup_savedFile (r : RawStats) (hr : r.InRange) (hv : r.ValidKeys) :
    (startup (savedFile r)).raw
      = ⟨r.TotalVisits, some (r.UniqueVisitors.getD ∅), some (r.UserVisits.getD ∅)⟩ := by
  obtain ⟨u1, m1, hdec, hu2, hm2⟩ := decodeStats_encodeRawStats r hr hv
  have hl : startup (savedFile r) = ensureMaps ⟨r.TotalVisits, u1, m1⟩ := by
    simp [startup, savedFile, loadStats, decodeFile, hdec]
  have hU : rawMap u1.contents = r.UniqueVisitors.getD ∅ := by
    apply Finmap.ext_lookup
    intro b
    rw [rawMap_lookup, ← hu2 b]
    rfl
  have hM : rawMap m1.contents = r.UserVisits.getD ∅ := by
    apply Finmap.ext_lookup
    intro b
    rw [rawMap_lookup, ← hm2 b]
    rfl
  rw [hl, ensureMaps_eq]
  simp only [Stats.raw, Option.map_some', hU, hM]

theorem rawMap_valid {α : Type} (m : StrMap α) (b : Bytes) (hb : b ∈ (rawMap m).keys) :
    validUTF8 b = true ∧ (rawMap m).lookup b = m.lookup (coerceUTF8 b) ∧
      coerceUTF8 b ∈ m.keys := by
  have hmem : b ∈ rawMap m := Finmap.mem_keys.mp hb
  obtain ⟨v, hv⟩ := Finmap.mem_iff.mp hmem
  have hl := rawMap_lookup m b
  rw [hv] at hl
  simp only [lookupBytes, GoMap.contents, Option.getD_some] at hl
  by_cases hval : validUTF8 b = true
  · rw [if_pos hval] at hl
    refine ⟨hval, by rw [hv, hl], ?_⟩
    exact Finmap.mem_keys.mpr (Finmap.mem_of_lookup_eq_some hl.symm)
  · rw [if_neg hval] at hl
    exact absurd hl (by simp)

theorem getD_map_rawMap {α : Type} (m : GoMap α) :
    (m.map rawMap).getD ∅ = rawMap m.contents := by
  cases m with
  | none => rfl
  | some f => rfl

/-- The two views of `saveStats` agree: what is loaded from the file written for a record
with decoded keys is what is loaded from the file written for its byte view. -/
theorem saveStats_raw (s : Stats) (disk : Disk) (saves : Nat) (h : s.InRange) :
    (startup (saveStats ⟨s, disk, saves⟩ SaveOutcome.ok).disk).raw
      = (startup (savedFile s.raw)).raw := by
  have hl : startup (saveStats ⟨s, disk, saves⟩ SaveOutcome.ok).disk = ensureMaps s := by
    simp [startup, saveStats, loadStats, decodeFile, decodeStats_encodeStats s h]
  have hr : s.raw.InRange := by
    refine ⟨h.1, ?_⟩
    intro k hk
    simp only [Stats.raw, getD_map_rawMap] at hk ⊢
    obtain ⟨_, hlk, hmem⟩ := rawMap_valid _ k hk
    rw [hlk]
    exact h.2 _ hmem
  have hv : s.raw.ValidKeys := by
    constructor
    · intro k hk
      simp only [Stats.raw, getD_map_rawMap] at hk
      exact (rawMap_valid _ k hk).1
    · intro k hk
      simp only [Stats.raw, getD_map_rawMap] at hk
      exact (rawMap_valid _ k hk).1
  rw [startup_savedFile s.raw hr hv, hl, ensureMaps_eq]
  simp only [Stats.raw, Option.map_some', getD_map_rawMap]

/-! ## The claims -/

/-- C1 (amended): starting from the empty record, for every sequence of N < 2^63 home
handler invocations on non-favicon paths, whatever the visitor identities and whatever
the outcome of each save, no invocation panics and the resulting record has
total_visits = N, user_visits[v] equal to the number of invocations whose identity is v
for every v, and the sum of all values of user_visits equal to total_visits. -/
theorem C1_counts_below_overflow (disk : Disk) (saves : Nat)
    (cs : List (Request × SaveOutcome))
    (hp : ∀ c ∈ cs, c.1.Path ≠ "/favicon.ico") (hN : cs.length < 2 ^ 63) :
    ∃ w1, run ⟨emptyStats, disk, saves⟩ (homeCalls cs) = some w1 ∧
      w1.stats.TotalVisits = cs.length ∧
      (∀ v, w1.stats.UserVisits.get v 0 = cs.countP (fun c => getIP c.1 = v)) ∧
      sumValues w1.stats.UserVisits = w1.stats.TotalVisits := by
  obtain ⟨w1, u1, m1, hr, ht, _, hm, _, hlm⟩ := run_empty_spec (homeCalls cs) disk saves
  have hlen : (homeCalls cs).length = cs.length := by simp [homeCalls]
  have hb : (⟨emptyStats, disk, saves⟩ : World).stats.TotalVisits
      + ((homeCalls cs).length : Int) ≤ maxInt := by
    show (0 : Int) + ((homeCalls cs).length : Int) ≤ maxInt
    rw [hlen]
    simp only [maxInt]
    omega
  obtain ⟨w2, hr2, hc2, _⟩ :=
    run_consistent (homeCalls cs) ⟨emptyStats, disk, saves⟩ ∅ ∅ rfl rfl emptyStats_consistent
      emptyStats_nonNeg hb
  have hw : w2 = w1 := Option.some.inj (hr2.symm.trans hr)
  subst hw
  refine ⟨w2, hr, ?_, ?_, hc2.symm⟩
  · rw [ht, homeCount_homeCalls cs hp, wrapInt_natCast _ hN]
  · intro v
    have hv := visits_le v (homeCalls cs)
    rw [hlen] at hv
    have hl := hlm v
    rw [← visits_homeCalls v cs hp, hm]
    show (m1.lookup v).getD 0 = _
    by_cases h0 : visits v (homeCalls cs) = 0
    · rw [if_pos h0] at hl
      rw [hl, h0]
      rfl
    · rw [if_neg h0] at hl
      rw [hl, Option.getD_some, wrapInt_natCast _ (lt_of_le_of_lt hv hN)]

/-- C1, witness: two invocations from two identities, the second save failing. -/
theorem C1_counts_below_overflow_witness :
    (∀ c ∈ [(reqA, SaveOutcome.ok), (reqB, SaveOutcome.createFails)],
        c.1.Path ≠ "/favicon.ico") ∧
      [(reqA, SaveOutcome.ok), (reqB, SaveOutcome.createFails)].length < 2 ^ 63 ∧
      ∃ w1, run ⟨emptyStats, none, 0⟩
          (homeCalls [(reqA, SaveOutcome.ok), (reqB, SaveOutcome.createFails)]) = some w1 ∧
        w1.stats.TotalVisits
          = ([(reqA, SaveOutcome.ok), (reqB, SaveOutcome.createFails)].length : Int) ∧
        (∀ v, w1.stats.UserVisits.get v 0
          = [(reqA, SaveOutcome.ok), (reqB, SaveOutcome.createFails)].countP
              (fun c => getIP c.1 = v)) ∧
        sumValues w1.stats.UserVisits = w1.stats.TotalVisits :=
  ⟨by decide, by decide,
    C1_counts_below_overflow none 0 [(reqA, SaveOutcome.ok), (reqB, SaveOutcome.createFails)]
      (by decide) (by decide)⟩

/-- C1, counterexample: after 2^63 home handler invocations from 10.0.0.1 on the path
`/`, starting from the empty record, total_visits is -2^63 and not the number of
invocations. -/
theorem C1_overflow_counterexample :
    (∀ c ∈ overflowCalls, c.1.Path ≠ "/favicon.ico") ∧
      ∃ w1, run ⟨emptyStats, none, 0⟩ (homeCalls overflowCalls) = some w1 ∧
        w1.stats.TotalVisits = -(2 ^ 63) ∧
        w1.stats.TotalVisits ≠ (overflowCalls.length : Int) := by
  obtain ⟨w1, u1, m1, hr, ht, _, _, _, _⟩ := run_empty_spec (homeCalls overflowCalls) none 0
  have h : w1.stats.TotalVisits = -(2 ^ 63) := by
    rw [ht, homeCount_homeCalls _ overflowCalls_path, overflowCalls_length]
    exact wrapInt_two_pow
  refine ⟨overflowCalls_path, w1, hr, h, ?_⟩
  rw [h, overflowCalls_length]
  decide

/-- C2 (amended): for every record whose two containers are present and whose
total_visits and user_visits[ip] are Go ints below the largest int, a home handler
invocation on a non-favicon path from identity ip reports personal count = previous
user_visits[ip] + 1 (an absent visitor counting as 0), total = previous total_visits + 1,
and unique = the number of entries of unique_visitors after ip has been inserted. In
particular, from a fresh start the requests from identities 10.0.0.1, 10.0.0.2, 10.0.0.1,
10.0.0.1 report (personal, total, unique) = (1,1,1), (1,2,2), (2,3,2), (3,4,2). -/
theorem C2_reported_numbers (w : World) (r : Request) (o : SaveOutcome) (u : StrMap Bool)
    (m : StrMap Int) (hu : w.stats.UniqueVisitors = some u) (hm : w.stats.UserVisits = some m)
    (hp : r.Path ≠ "/favicon.ico")
    (hT : minInt ≤ w.stats.TotalVisits ∧ w.stats.TotalVisits < maxInt)
    (hV : minInt ≤ w.stats.UserVisits.get (getIP r) 0 ∧
      w.stats.UserVisits.get (getIP r) 0 < maxInt) :
    (∃ w1, homeHandler w r o = some (w1, Response.home
        ⟨w.stats.UserVisits.get (getIP r) 0 + 1, w.stats.TotalVisits + 1,
          ((u.insert (getIP r) true).keys.card : Int)⟩)) ∧
      homeResponses (boot none) scenario =
        [some (Response.home ⟨1, 1, 1⟩), some (Response.home ⟨1, 2, 2⟩),
          some (Response.home ⟨2, 3, 2⟩), some (Response.home ⟨3, 4, 2⟩)] := by
  refine ⟨?_, by decide⟩
  rw [hm] at hV
  simp only [GoMap.get] at hV
  have h1 : wrapInt (w.stats.TotalVisits + 1) = w.stats.TotalVisits + 1 := by
    apply wrapInt_of_isInt
    simp only [isInt, minInt, maxInt, Bool.and_eq_true, decide_eq_true_eq] at *
    omega
  have h2 : wrapInt ((m.lookup (getIP r)).getD 0 + 1) = (m.lookup (getIP r)).getD 0 + 1 := by
    apply wrapInt_of_isInt
    simp only [isInt, minInt, maxInt, Bool.and_eq_true, decide_eq_true_eq] at *
    omega
  rw [homeHandler_eq w r o u m hu hm hp, h1, h2, hm]
  exact ⟨_, rfl⟩

/-- C2, witness: the first request of the scenario, on the freshly started store. -/
theorem C2_reported_numbers_witness :
    (boot none).stats.UniqueVisitors = some ∅ ∧ (boot none).stats.UserVisits = some ∅ ∧
      reqA.Path ≠ "/favicon.ico" ∧
      (minInt ≤ (boot none).stats.TotalVisits ∧ (boot none).stats.TotalVisits < maxInt) ∧
      (minInt ≤ (boot none).stats.UserVisits.get (getIP reqA) 0 ∧
        (boot none).stats.UserVisits.get (getIP reqA) 0 < maxInt) ∧
      ((∃ w1, homeHandler (boot none) reqA SaveOutcome.ok = some (w1, Response.home
          ⟨(boot none).stats.UserVisits.get (getIP reqA) 0 + 1,
            (boot none).stats.TotalVisits + 1,
            (((∅ : StrMap Bool).insert (getIP reqA) true).keys.card : Int)⟩)) ∧
        homeResponses (boot none) scenario =
          [some (Response.home ⟨1, 1, 1⟩), some (Response.home ⟨1, 2, 2⟩),
            some (Response.home ⟨2, 3, 2⟩), some (Response.home ⟨3, 4, 2⟩)]) :=
  ⟨rfl, rfl, by decide, by decide, by decide,
    C2_reported_numbers (boot none) reqA SaveOutcome.ok ∅ ∅ rfl rfl (by decide) (by decide)
      (by decide)⟩

/-- C2, counterexample: the file `{"total_visits":9223372036854775807}` loads into a
record with both containers present; the next home handler invocation reports the total
-2^63, not the previous total plus one. -/
theorem C2_max_total_counterexample :
    (boot (totalOnlyFile (2 ^ 63 - 1))).stats = ⟨2 ^ 63 - 1, some ∅, some ∅⟩ ∧
      (homeHandler (boot (totalOnlyFile (2 ^ 63 - 1))) reqA SaveOutcome.ok).map Prod.snd
        = some (Response.home ⟨1, -(2 ^ 63), 1⟩) ∧
      (-(2 ^ 63) : Int) ≠ (2 ^ 63 - 1) + 1 := by
  decide

/-- C3 (amended): for every remote-address string for which splitting into host and
port fails, the visitor identity derived by getIP is the empty string. -/
theorem C3_getIP_empty_on_failure (r : Request)
    (h : (SplitHostPort r.RemoteAddr).err ≠ none) : getIP r = "" := by
  unfold getIP
  revert h
  unfold SplitHostPort
  simp only [splitFinish, addrErr]
  repeat' split
  all_goals simp

/-- C3, witness: the address `10.0.0.1`, which has no port. -/
theorem C3_getIP_empty_on_failure_witness :
    (SplitHostPort (Request.mk "/" "10.0.0.1").RemoteAddr).err ≠ none ∧
      getIP (Request.mk "/" "10.0.0.1") = "" :=
  ⟨by decide, C3_getIP_empty_on_failure (Request.mk "/" "10.0.0.1") (by decide)⟩

/-- C3, counterexample: splitting `10.0.0.1` fails (no port), and the identity derived
by getIP is the empty string, not the raw address. -/
theorem C3_no_port_counterexample :
    (SplitHostPort "10.0.0.1").err = some "missing port in address" ∧
      getIP (Request.mk "/" "10.0.0.1") = "" ∧
      getIP (Request.mk "/" "10.0.0.1") ≠ "10.0.0.1" := by
  decide

/-- C4 (amended): when the record that loadStats builds from the persistence file has
total_visits equal to the sum of the values of user_visits and no negative count (as it
does for a missing or undecodable file), and total_visits has room for one increment
per invocation below the largest int, then after each invocation of a sequence of home
handler invocations total_visits equals the sum of all values in user_visits. -/
theorem C4_total_is_sum_after_load (d : Disk) (cs : List (Request × SaveOutcome))
    (hc : (startup d).Consistent) (hn : (startup d).NonNeg)
    (hb : (startup d).TotalVisits + cs.length ≤ maxInt) :
    ∀ n, ∃ w1, run (boot d) (homeCalls (cs.take n)) = some w1 ∧
      w1.stats.TotalVisits = sumValues w1.stats.UserVisits := by
  intro n
  obtain ⟨u, m, hu, hm⟩ := loadStats_present zeroStats d
  have hlen : ((homeCalls (cs.take n)).length : Int) ≤ cs.length := by
    simp only [homeCalls, List.length_map, List.length_take]
    exact_mod_cast Nat.min_le_right n cs.length
  obtain ⟨w1, hr, hc1, _⟩ :=
    run_consistent (homeCalls (cs.take n)) (boot d) u m hu hm hc hn
      (le_trans (add_le_add_left hlen _) hb)
  exact ⟨w1, hr, hc1⟩

/-- C4, witness: no persistence file, then two invocations. -/
theorem C4_total_is_sum_after_load_witness :
    (startup none).Consistent ∧ (startup none).NonNeg ∧
      (startup none).TotalVisits
        + ([(reqA, SaveOutcome.ok), (reqB, SaveOutcome.createFails)].length : Int) ≤ maxInt ∧
      ∀ n, ∃ w1, run (boot none)
          (homeCalls ([(reqA, SaveOutcome.ok), (reqB, SaveOutcome.createFails)].take n))
            = some w1 ∧
        w1.stats.TotalVisits = sumValues w1.stats.UserVisits :=
  ⟨by decide, by decide, by decide,
    C4_total_is_sum_after_load none [(reqA, SaveOutcome.ok), (reqB, SaveOutcome.createFails)]
      (by decide) (by decide) (by decide)⟩

/-- C4, counterexample: the file `{"total_visits":5}` decodes without error; after one
home handler invocation total_visits is 6 and the sum of the values of user_visits is 1. -/
theorem C4_total_only_file_counterexample :
    (run (boot (totalOnlyFile 5)) (homeCalls [(reqA, SaveOutcome.ok)])).map
        (fun w => (w.stats.TotalVisits, sumValues w.stats.UserVisits)) = some (6, 1) := by
  decide

/-- C5 (amended): in every state reached from the empty record by a sequence of fewer
than 2^63 home, stats and favicon invocations, the keys of unique_visitors are exactly the
keys of user_visits with a non-zero count, the two containers have the same keys, and
every present count is at least 1. -/
theorem C5_same_keys_positive_counts (disk : Disk) (saves : Nat) (cs : List Call)
    (hN : cs.length < 2 ^ 63) :
    ∃ w1 u1 m1, run ⟨emptyStats, disk, saves⟩ cs = some w1 ∧
      w1.stats.UniqueVisitors = some u1 ∧ w1.stats.UserVisits = some m1 ∧
      u1.keys = m1.keys.filter (fun k => (m1.lookup k).getD 0 ≠ 0) ∧
      u1.keys = m1.keys ∧
      ∀ k v, m1.lookup k = some v → 1 ≤ v := by
  obtain ⟨w1, u1, m1, hr, _, hu, hm, hlu, hlm⟩ := run_empty_spec cs disk saves
  have hpos : ∀ k v, m1.lookup k = some v → 1 ≤ v := by
    intro k v hkv
    have hl := hlm k
    by_cases h0 : visits k cs = 0
    · rw [if_pos h0, hkv] at hl
      exact absurd hl (by simp)
    · rw [if_neg h0, hkv, wrapInt_natCast _ (lt_of_le_of_lt (visits_le k cs) hN)] at hl
      have hv : v = (visits k cs : Int) := Option.some.inj hl
      omega
  have hkeys : u1.keys = m1.keys := by
    ext k
    rw [Finmap.mem_keys, Finmap.mem_keys, ← Finmap.lookup_isSome, ← Finmap.lookup_isSome,
      hlu k, hlm k]
    by_cases h0 : visits k cs = 0
    · rw [if_pos h0, if_pos h0]
      simp
    · rw [if_neg h0, if_neg h0]
      simp
  refine ⟨w1, u1, m1, hr, hu, hm, ?_, hkeys, hpos⟩
  rw [hkeys]
  ext k
  rw [Finset.mem_filter]
  constructor
  · intro hk
    refine ⟨hk, ?_⟩
    obtain ⟨v, hv⟩ := Finmap.mem_iff.mp (Finmap.mem_keys.mp hk)
    have h1 := hpos k v hv
    rw [hv, Option.getD_some]
    omega
  · intro hk
    exact hk.1

/-- C5, witness: a home, a stats, a favicon and another home invocation. -/
theorem C5_same_keys_positive_counts_witness :
    [Call.home reqA SaveOutcome.ok, Call.stats reqA, Call.favicon reqB,
        Call.home reqB SaveOutcome.createFails].length < 2 ^ 63 ∧
      ∃ w1 u1 m1, run ⟨emptyStats, none, 0⟩
          [Call.home reqA SaveOutcome.ok, Call.stats reqA, Call.favicon reqB,
            Call.home reqB SaveOutcome.createFails] = some w1 ∧
        w1.stats.UniqueVisitors = some u1 ∧ w1.stats.UserVisits = some m1 ∧
        u1.keys = m1.keys.filter (fun k => (m1.lookup k).getD 0 ≠ 0) ∧
        u1.keys = m1.keys ∧
        ∀ k v, m1.lookup k = some v → 1 ≤ v :=
  ⟨by decide,
    C5_same_keys_positive_counts none 0
      [Call.home reqA SaveOutcome.ok, Call.stats reqA, Call.favicon reqB,
        Call.home reqB SaveOutcome.createFails] (by decide)⟩

/-- C5, counterexample: after 2^63 home handler invocations from 10.0.0.1, starting from
the empty record, the count of 10.0.0.1 is present in user_visits and is -2^63, which is
below 1. -/
theorem C5_overflow_counterexample :
    ∃ w1 m1, run ⟨emptyStats, none, 0⟩ (homeCalls overflowCalls) = some w1 ∧
      w1.stats.UserVisits = some m1 ∧ m1.lookup "10.0.0.1" = some (-(2 ^ 63)) ∧
      ¬ (1 : Int) ≤ -(2 ^ 63) := by
  obtain ⟨w1, _, m1, hr, _, _, hm, _, hlm⟩ := run_empty_spec (homeCalls overflowCalls) none 0
  refine ⟨w1, m1, hr, hm, ?_, by decide⟩
  rw [hlm "10.0.0.1", overflowCalls_visits, if_neg (by decide), wrapInt_two_pow]

/-- C6 (amended): for every VisitRecord whose visitor identities are valid UTF-8 (its
integers being Go ints), deserializing at startup with loadStats the file content that a
successful saveStats produces for that record yields an equal record: the same
total_visits, the same unique_visitors set and the same user_visits mapping, a nil
container coming back as an empty one; so a record with both containers present comes
back as it was. -/
theorem C6_save_then_load_valid_keys (r : RawStats) (hr : r.InRange) (hv : r.ValidKeys) :
    (startup (savedFile r)).raw
        = ⟨r.TotalVisits, some (r.UniqueVisitors.getD ∅), some (r.UserVisits.getD ∅)⟩ ∧
      (r.UniqueVisitors ≠ none → r.UserVisits ≠ none → (startup (savedFile r)).raw = r) := by
  have hmain := startup_savedFile r hr hv
  refine ⟨hmain, ?_⟩
  intro h1 h2
  rw [hmain]
  obtain ⟨t, u, m⟩ := r
  cases u with
  | none => exact absurd rfl h1
  | some u =>
    cases m with
    | none => exact absurd rfl h2
    | some m => rfl

/-- C6, witness: the record after the end-to-end scenario. -/
theorem C6_save_then_load_valid_keys_witness :
    sampleRaw.InRange ∧ sampleRaw.ValidKeys ∧
      (startup (savedFile sampleRaw)).raw
        = ⟨sampleRaw.TotalVisits, some (sampleRaw.UniqueVisitors.getD ∅),
            some (sampleRaw.UserVisits.getD ∅)⟩ ∧
      (sampleRaw.UniqueVisitors ≠ none → sampleRaw.UserVisits ≠ none →
        (startup (savedFile sampleRaw)).raw = sampleRaw) :=
  ⟨by decide, by decide, C6_save_then_load_valid_keys sampleRaw (by decide) (by decide)⟩

/-- C6, counterexample: a record with the two identities 0xFE and 0xFF, which are not
valid UTF-8, seen once and twice. Both keys are written as U+FFFD, so the loaded record
has the single identity U+FFFD (bytes EF BF BD) with the count 2: it is not the record
that was saved. -/
theorem C6_invalid_keys_counterexample :
    invalidKeysRaw.InRange ∧
      startup (savedFile invalidKeysRaw)
        = ⟨3, some (Finmap.insert "\uFFFD" true ∅), some (Finmap.insert "\uFFFD" (2 : Int) ∅)⟩ ∧
      (startup (savedFile invalidKeysRaw)).raw
        = ⟨3, some (Finmap.insert [0xEF, 0xBF, 0xBD] true ∅),
            some (Finmap.insert [0xEF, 0xBF, 0xBD] (2 : Int) ∅)⟩ ∧
      (startup (savedFile invalidKeysRaw)).raw ≠ invalidKeysRaw := by
  decide

/-- C7 (amended): when no persistence file exists, loadStats yields total_visits = 0, an
empty unique_visitors set and an empty user_visits mapping; for a file that does not
start with a well-formed JSON value, and for every file whose first JSON value makes
Decode return an error, loadStats yields exactly that same empty state. In each case
loadStats returns normally, with the record as its only result. -/
theorem C7_load_missing_or_corrupt (cur : Stats) (c : FileContent)
    (h : decodeFile cur c = none) :
    loadStats cur none = ⟨0, some ∅, some ∅⟩ ∧
      loadStats cur (some FileContent.unparsable) = loadStats cur none ∧
      loadStats cur (some c) = loadStats cur none := by
  refine ⟨rfl, rfl, ?_⟩
  simp only [loadStats, h]
  rfl

/-- C7, witness: a file whose user_visits is a string instead of an object. -/
theorem C7_load_missing_or_corrupt_witness :
    decodeFile zeroStats (FileContent.value (Json.obj
        [("total_visits", Json.int 7), ("user_visits", Json.str "oops")])) = none ∧
      loadStats zeroStats none = ⟨0, some ∅, some ∅⟩ ∧
      loadStats zeroStats (some FileContent.unparsable) = loadStats zeroStats none ∧
      loadStats zeroStats (some (FileContent.value (Json.obj
        [("total_visits", Json.int 7), ("user_visits", Json.str "oops")])))
        = loadStats zeroStats none :=
  ⟨by decide,
    C7_load_missing_or_corrupt zeroStats (FileContent.value (Json.obj
      [("total_visits", Json.int 7), ("user_visits", Json.str "oops")])) (by decide)⟩

/-- C7, counterexample: the file `{"total_visits":5} xyz` is not valid JSON, yet Decode
reads its first value without error and loadStats keeps the total 5 instead of yielding
the empty state of a missing file. -/
theorem C7_junk_tail_counterexample :
    junkTailFile.Invalid ∧
      loadStats zeroStats (some junkTailFile) = ⟨5, some ∅, some ∅⟩ ∧
      loadStats zeroStats (some junkTailFile) ≠ loadStats zeroStats none := by
  refine ⟨trivial, by decide, by decide⟩

/-- C8: for every record, a request whose path is /favicon.ico leaves total_visits,
unique_visitors and user_visits unchanged and triggers no save (the file and the number
of saveStats calls are unchanged, whatever a save would have done), whether it is handled
by the favicon handler or reaches the home handler; both write an empty response. -/
theorem C8_favicon_changes_nothing (w : World) (r : Request) (o : SaveOutcome)
    (h : r.Path = "/favicon.ico") :
    homeHandler w r o = some (w, Response.empty) ∧
      faviconHandler w r = (w, Response.empty) :=
  ⟨homeHandler_favicon w r o h, rfl⟩

/-- C8, witness: a favicon request on the freshly started store. -/
theorem C8_favicon_changes_nothing_witness :
    (Request.mk "/favicon.ico" "10.0.0.1:40000").Path = "/favicon.ico" ∧
      homeHandler (boot none) (Request.mk "/favicon.ico" "10.0.0.1:40000") SaveOutcome.ok
        = some (boot none, Response.empty) ∧
      faviconHandler (boot none) (Request.mk "/favicon.ico" "10.0.0.1:40000")
        = (boot none, Response.empty) :=
  ⟨rfl, C8_favicon_changes_nothing (boot none) (Request.mk "/favicon.ico" "10.0.0.1:40000")
    SaveOutcome.ok rfl⟩

/-- C9 (amended): for every M < 2^63, after M concurrent home-handler calls on
non-favicon paths from the same identity v, starting from a record (containers present)
where v is absent from user_visits, user_visits[v] = M: whatever the schedule of the
goroutines, statement by statement with each `++` split into its read and its write, once
all calls have completed no increment is lost, the mutex admitting one goroutine at a
time between `mu.Lock()` and `mu.Unlock()`; and the calls can all complete. -/
theorem C9_no_lost_update (w : World) (u : StrMap Bool) (m : StrMap Int) (v : String)
    (rs : List (Request × SaveOutcome))
    (hu : w.stats.UniqueVisitors = some u) (hm : w.stats.UserVisits = some m)
    (habs : m.lookup v = none)
    (hreq : ∀ c ∈ rs, c.1.Path ≠ "/favicon.ico" ∧ getIP c.1 = v)
    (hM : rs.length < 2 ^ 63) :
    (∀ sched p, exec true (spawn w rs) sched = some p → p.allDone = true →
        p.shared.world.stats.UserVisits.get v 0 = rs.length) ∧
      ∃ p, exec true (spawn w rs) (seqSchedule rs.length) = some p ∧ p.allDone = true := by
  refine ⟨?_, seqSchedule_completes w rs ⟨u, m, hu, hm⟩ (fun c hc => (hreq c hc).1)⟩
  intro sched p hexec hdone
  have h0 : w.stats.UserVisits.get v 0 = 0 := by
    rw [hm]
    simp only [GoMap.get, habs]
    rfl
  rw [exec_count w v rs ⟨u, m, hu, hm⟩ hreq sched p hexec hdone, h0, bump_zero,
    wrapInt_natCast _ hM]

/-- C9, witness: two concurrent calls from 10.0.0.1 on the freshly started store, the
save of the second failing. -/
theorem C9_no_lost_update_witness :
    (boot none).stats.UniqueVisitors = some ∅ ∧ (boot none).stats.UserVisits = some ∅ ∧
      (∅ : StrMap Int).lookup "10.0.0.1" = none ∧
      (∀ c ∈ [(reqA, SaveOutcome.ok), (reqA, SaveOutcome.createFails)],
        c.1.Path ≠ "/favicon.ico" ∧ getIP c.1 = "10.0.0.1") ∧
      [(reqA, SaveOutcome.ok), (reqA, SaveOutcome.createFails)].length < 2 ^ 63 ∧
      ((∀ sched p,
          exec true (spawn (boot none) [(reqA, SaveOutcome.ok), (reqA, SaveOutcome.createFails)])
            sched = some p →
          p.allDone = true →
          p.shared.world.stats.UserVisits.get "10.0.0.1" 0
            = ([(reqA, SaveOutcome.ok), (reqA, SaveOutcome.createFails)].length : Int)) ∧
        ∃ p, exec true (spawn (boot none) [(reqA, SaveOutcome.ok), (reqA, SaveOutcome.createFails)])
            (seqSchedule [(reqA, SaveOutcome.ok), (reqA, SaveOutcome.createFails)].length)
              = some p ∧
          p.allDone = true) :=
  ⟨rfl, rfl, by decide, by decide, by decide,
    C9_no_lost_update (boot none) ∅ ∅ "10.0.0.1"
      [(reqA, SaveOutcome.ok), (reqA, SaveOutcome.createFails)] rfl rfl (by decide) (by decide)
      (by decide)⟩

/-- C9, counterexample: 2^63 concurrent home-handler calls from 10.0.0.1 on the empty
record, scheduled one after the other, all complete, and user_visits["10.0.0.1"] is
-2^63, not the number of calls. -/
theorem C9_overflow_counterexample :
    (∀ c ∈ overflowCalls, c.1.Path ≠ "/favicon.ico" ∧ getIP c.1 = "10.0.0.1") ∧
      ∃ p, exec true (spawn ⟨emptyStats, none, 0⟩ overflowCalls)
          (seqSchedule overflowCalls.length) = some p ∧
        p.allDone = true ∧
        p.shared.world.stats.UserVisits.get "10.0.0.1" 0 = -(2 ^ 63) ∧
        p.shared.world.stats.UserVisits.get "10.0.0.1" 0 ≠ (overflowCalls.length : Int) := by
  obtain ⟨p, hexec, hdone⟩ :=
    seqSchedule_completes ⟨emptyStats, none, 0⟩ overflowCalls ⟨∅, ∅, rfl, rfl⟩
      (fun c hc => (overflowCalls_identity c hc).1)
  have hcount := exec_count ⟨emptyStats, none, 0⟩ "10.0.0.1" overflowCalls ⟨∅, ∅, rfl, rfl⟩
    overflowCalls_identity _ p hexec hdone
  have h0 : (⟨emptyStats, none, 0⟩ : World).stats.UserVisits.get "10.0.0.1" 0 = 0 := by decide
  rw [h0, bump_zero, overflowCalls_length, wrapInt_two_pow] at hcount
  refine ⟨overflowCalls_identity, p, hexec, hdone, hcount, ?_⟩
  rw [hcount, overflowCalls_length]
  decide

/-- C10: for every state of the persistence file (missing, undecodable, or decodable,
with unique_visitors or user_visits absent or null or not), after loadStats both
unique_visitors and user_visits are present (non-nil) containers, and no handler
invocation of any following sequence panics on a missing container. -/
theorem C10_containers_present_after_load (cur : Stats) (d : Disk) :
    (loadStats cur d).UniqueVisitors ≠ none ∧ (loadStats cur d).UserVisits ≠ none ∧
      ∀ (disk : Disk) (saves : Nat) (cs : List Call),
        (run ⟨loadStats cur d, disk, saves⟩ cs).isSome = true := by
  obtain ⟨u, m, hu, hm⟩ := loadStats_present cur d
  refine ⟨by rw [hu]; simp, by rw [hm]; simp, ?_⟩
  intro disk saves cs
  exact run_isSome cs ⟨loadStats cur d, disk, saves⟩ u m hu hm

end VisitorCounter
